import Mathlib

/-!
Verification development for the table-cleaning pipeline of `data_cleaning.py`.

The program is a linear sequence of pandas DataFrame transformations.  It is
embedded shallowly: a `Table` is a list of column names, one declared dtype per
column, an integer row index, and a list of rows, each row a list of
dynamically typed `Cell`s positionally aligned with the column names.  Numbers
are modelled as exact rationals (Python floats are dyadic rationals and their
string form round-trips); the pandas missing marker (NaN) is the single
sentinel `Cell.missing`, whose string form under `astype(str)` is `"nan"`.
Python string operations are modelled on ASCII data, the character set the
program's regexes and case rules operate on.
-/

/- ## ASCII character and string helpers -/

/-- ASCII whitespace, the characters Python `str.strip()` removes (ASCII part). -/
def isWsCh (c : Char) : Bool := c = ' ' || c = '\t' || c = '\n' || c = '\r'

/-- ASCII decimal digit test (regex `\d` on ASCII). -/
def isDigitCh (c : Char) : Bool := decide (48 ≤ c.toNat ∧ c.toNat ≤ 57)

/-- ASCII lower-casing of one character, modelling Python `str.lower`. -/
def charLow (c : Char) : Char :=
  if 65 ≤ c.toNat ∧ c.toNat ≤ 90 then Char.ofNat (c.toNat + 32) else c

/-- ASCII upper-casing of one character, modelling Python `str.upper`. -/
def charUp (c : Char) : Char :=
  if 97 ≤ c.toNat ∧ c.toNat ≤ 122 then Char.ofNat (c.toNat - 32) else c

def lowerStr (s : String) : String := ⟨s.data.map charLow⟩

def upperStr (s : String) : String := ⟨s.data.map charUp⟩

/-- drop the trailing characters satisfying `p`. -/
def dropTrail (p : Char → Bool) (l : List Char) : List Char := (l.reverse.dropWhile p).reverse

def stripList (l : List Char) : List Char := dropTrail isWsCh (l.dropWhile isWsCh)

/-- Python `str.strip()` (ASCII whitespace fragment). -/
def stripStr (s : String) : String := ⟨stripList s.data⟩

/-- Python `str.rstrip('%')`: drop every trailing percent sign. -/
def rstripPercent (s : String) : String := ⟨dropTrail (fun c => c = '%') s.data⟩

/-- Python `s.startswith(c)` for a one-character prefix. -/
def headIsCh (s : String) (c : Char) : Bool := s.data.head? = some c

/-- does the string start with one of the given characters (regex `^[..]`). -/
def headIn (s : String) (cs : List Char) : Bool :=
  match s.data.head? with
  | some d => cs.contains d
  | none => false

/- ## Decimal digits, printing and parsing of numbers -/

def digitChar : Nat → Char
  | 0 => '0' | 1 => '1' | 2 => '2' | 3 => '3' | 4 => '4'
  | 5 => '5' | 6 => '6' | 7 => '7' | 8 => '8' | _ => '9'

/-- little-endian decimal digits of `n`; fuel-based so the kernel can evaluate it. -/
def digitsRevFuel : Nat → Nat → List Char
  | 0, _ => []
  | fuel + 1, n => if n = 0 then [] else digitChar (n % 10) :: digitsRevFuel fuel (n / 10)

def natToStr (n : Nat) : String := if n = 0 then "0" else ⟨(digitsRevFuel n n).reverse⟩

def intToStr (i : Int) : String := if i < 0 then "-" ++ natToStr i.natAbs else natToStr i.natAbs

def digitVal (c : Char) : Nat := c.toNat - 48

def digitsVal (l : List Char) : Nat := l.foldl (fun a c => 10 * a + digitVal c) 0

/-- decimal digits of `m` zero-padded on the left to width `k` (big-endian). -/
def padDigits (k m : Nat) : List Char :=
  let ds := digitsRevFuel m m
  (ds ++ List.replicate (k - ds.length) '0').reverse

/-- least `k ≤ d` with `d` dividing `10 ^ k`, when one exists. -/
def decExp (d : Nat) : Option Nat := (List.range (d + 1)).find? (fun k => 10 ^ k % d == 0)

/-- string form of an exact rational, modelling Python `str()` on a float.  Every
Python float is a dyadic rational and prints in decimal; for rationals with no
finite decimal expansion (unreachable through float data) an unparseable
fraction form is produced. -/
def numToStr (q : ℚ) : String :=
  let sgn := if q.num < 0 then "-" else ""
  match decExp q.den with
  | some k =>
    let n := q.num.natAbs * 10 ^ k / q.den
    if k = 0 then sgn ++ natToStr n
    else sgn ++ natToStr (n / 10 ^ k) ++ "." ++ (⟨padDigits k (n % 10 ^ k)⟩ : String)
  | none => "(" ++ intToStr q.num ++ "/" ++ natToStr q.den ++ ")"

def splitDigits (cs : List Char) : List Char × List Char :=
  (cs.takeWhile isDigitCh, cs.dropWhile isDigitCh)

def parseSign : List Char → Bool × List Char
  | [] => (false, [])
  | c :: cs =>
    if c = '-' then (true, cs)
    else if c = '+' then (false, cs)
    else (false, c :: cs)

def applySign (neg : Bool) (q : ℚ) : ℚ := if neg then -q else q

/-- decimal-number parser modelling `pd.to_numeric(errors='coerce')` on the
strings this program feeds it: optional sign, integer digits, optional decimal
point and fraction digits, surrounding whitespace ignored (exponent forms never
arise from the pipeline's own string forms and are not modelled). -/
def parseNumList (l : List Char) : Option ℚ :=
  let sp := parseSign (stripList l)
  let ip := (splitDigits sp.2).1
  match (splitDigits sp.2).2 with
  | [] => if ip = [] then none else some (applySign sp.1 (digitsVal ip))
  | c :: l4 =>
    if c = '.' then
      let fp := (splitDigits l4).1
      if (splitDigits l4).2 = [] ∧ (ip ≠ [] ∨ fp ≠ []) then
        some (applySign sp.1
          ((digitsVal ip * 10 ^ fp.length + digitsVal fp : ℕ) / (10 ^ fp.length : ℚ)))
      else none
    else none

def parseNumQ (s : String) : Option ℚ := parseNumList s.data

/- ## Cells, dtypes and tables -/

/-- declared column dtype, the part of the pandas dtype the program reads
(via `pd.api.types.is_numeric_dtype`) or sets (`astype`). -/
inductive Dtype
  | obj
  | float64
  | int64
  | boolDt
deriving DecidableEq

/-- dynamically typed cell value.  `missing` models the NaN / NA marker. -/
inductive Cell
  | str (s : String)
  | num (q : ℚ)
  | bool (b : Bool)
  | missing
deriving DecidableEq

/-- string form of one cell under `astype(str)`: NaN prints as `"nan"`,
booleans as Python booleans, numbers in decimal. -/
def cellStr : Cell → String
  | .str s => s
  | .num q => numToStr q
  | .bool b => if b then "True" else "False"
  | .missing => "nan"

def isMissingB : Cell → Bool
  | .missing => true
  | _ => false

/-- the table: named columns with declared dtypes, a row index, and rows of
cells positionally aligned with the names. -/
structure Table where
  names : List String
  dtypes : List Dtype
  index : List Nat
  rows : List (List Cell)
deriving DecidableEq

def Table.nRows (t : Table) : Nat := t.rows.length

def Table.hasCol (t : Table) (n : String) : Bool := t.names.contains n

/-- position of the first column with the given name. -/
def colIdx (t : Table) (n : String) : Option Nat := t.names.findIdx? (· == n)

def Table.dtypeAt (t : Table) (n : String) : Dtype :=
  match colIdx t n with
  | some j => t.dtypes.getD j .obj
  | none => .obj

def getCells (t : Table) (n : String) : List Cell :=
  match colIdx t n with
  | some j => t.rows.map (fun r => r.getD j .missing)
  | none => []

/-- columnwise rewrite `df[n] = df[n].map f` together with the resulting dtype;
identity when the column is absent. -/
def mapCol (t : Table) (n : String) (d : Dtype) (f : Cell → Cell) : Table :=
  match colIdx t n with
  | some j =>
    { t with dtypes := t.dtypes.set j d
           , rows := t.rows.map (fun r => r.set j (f (r.getD j .missing))) }
  | none => t

/-- column assignment `df[n] = cs`: overwrite the existing column in place, or
append a new one on the right (pandas assignment semantics). -/
def setCol (t : Table) (n : String) (d : Dtype) (cs : List Cell) : Table :=
  match colIdx t n with
  | some j =>
    { t with dtypes := t.dtypes.set j d
           , rows := t.rows.zipWith (fun r c => r.set j c) cs }
  | none =>
    { names := t.names ++ [n], dtypes := t.dtypes ++ [d], index := t.index
    , rows := t.rows.zipWith (fun r c => r ++ [c]) cs }

/-- a well-formed rectangular table: dtypes and every row aligned with the names. -/
def Rect (t : Table) : Prop :=
  t.dtypes.length = t.names.length ∧ ∀ r ∈ t.rows, r.length = t.names.length

instance : DecidablePred Rect := fun t => by
  unfold Rect; infer_instance

/-- the shared stage shape `if col in df.columns: df[col] = df[col].map f`:
every standardizer guards its rewrite with a column-presence check. -/
def colApply (n : String) (d : Dtype) (f : Cell → Cell) (df : Table) : Table :=
  if df.hasCol n then mapCol df n d f else df

/- ## The eight pipeline stages (src/data_cleaning.py) -/

/-- name normalisation of `clean_column_names` (lines 10-11): lower-case, then
spaces to underscores. -/
def normName (s : String) : String :=
  ⟨(s.data.map charLow).map (fun c => if c = ' ' then '_' else c)⟩

/-- the rename dictionary of line 12. -/
def renameRule (s : String) : String :=
  if s = "st" then "state" else if s = "income" then "customer_income" else s

/-- `clean_column_names` (lines 6-13). -/
def clean_column_names (df : Table) : Table :=
  { df with names := (df.names.map normName).map renameRule }

/-- per-cell gender rule of lines 21-25: `astype(str)` then the lambda.  The
`fillna('')` of line 21 is a no-op, since after `astype(str)` no null remains.
Note the lambda's else branch returns the string `x` itself, untrimmed and in
its original case. -/
def genderCell (c : Cell) : Cell :=
  let x := cellStr c
  if headIsCh (upperStr (stripStr x)) 'F' then .str "F"
  else if headIsCh (upperStr (stripStr x)) 'M' then .str "M"
  else .str x

/-- `standardize_gender` (lines 15-26). -/
def standardize_gender (df : Table) : Table := colApply "gender" .obj genderCell df

/-- the state lookup table of lines 34-45. -/
def stateMapping : List (String × String) :=
  [ ("AL","ALABAMA"), ("AK","ALASKA"), ("AZ","ARIZONA"), ("AR","ARKANSAS"),
    ("CA","CALIFORNIA"), ("CALI","CALIFORNIA"),
    ("CO","COLORADO"), ("CT","CONNECTICUT"), ("DE","DELAWARE"), ("FL","FLORIDA"),
    ("GA","GEORGIA"), ("HI","HAWAII"), ("ID","IDAHO"), ("IL","ILLINOIS"),
    ("IN","INDIANA"), ("IA","IOWA"), ("KS","KANSAS"), ("KY","KENTUCKY"),
    ("LA","LOUISIANA"), ("ME","MAINE"), ("MD","MARYLAND"), ("MA","MASSACHUSETTS"),
    ("MI","MICHIGAN"), ("MN","MINNESOTA"), ("MS","MISSISSIPPI"), ("MO","MISSOURI"),
    ("MT","MONTANA"), ("NE","NEBRASKA"), ("NV","NEVADA"), ("NH","NEW HAMPSHIRE"),
    ("NJ","NEW JERSEY"), ("NM","NEW MEXICO"), ("NY","NEW YORK"), ("NC","NORTH CAROLINA"),
    ("ND","NORTH DAKOTA"), ("OH","OHIO"), ("OK","OKLAHOMA"), ("OR","OREGON"),
    ("PA","PENNSYLVANIA"), ("RI","RHODE ISLAND"), ("SC","SOUTH CAROLINA"),
    ("SD","SOUTH DAKOTA"), ("TN","TENNESSEE"), ("TX","TEXAS"), ("UT","UTAH"),
    ("VT","VERMONT"), ("VA","VIRGINIA"), ("WA","WASHINGTON"), ("WV","WEST VIRGINIA"),
    ("WI","WISCONSIN"), ("WY","WYOMING") ]

/-- `Series.replace(state_mapping)`: exact-value replacement. -/
def replaceVal (s : String) : String :=
  match stateMapping.find? (fun p => p.1 == s) with
  | some p => p.2
  | none => s

/-- per-cell state rule of line 46: `astype(str).str.upper().replace(mapping)`. -/
def stateCell (c : Cell) : Cell := .str (replaceVal (upperStr (cellStr c)))

/-- `standardize_state` (lines 29-47). -/
def standardize_state (df : Table) : Table := colApply "state" .obj stateCell df

/-- per-cell education rule of lines 54-55: `astype(str)`, then regex `^[Bb]`
rewrites to `Bachelor`. -/
def eduCell (c : Cell) : Cell :=
  let s := cellStr c
  if headIn s ['B', 'b'] then .str "Bachelor" else .str s

/-- `standardize_education` (lines 49-56). -/
def standardize_education (df : Table) : Table := colApply "education" .obj eduCell df

/-- regex word character `\w` on ASCII. -/
def isWordCh (c : Char) : Bool :=
  isDigitCh c || decide (65 ≤ c.toNat ∧ c.toNat ≤ 90) ||
    decide (97 ≤ c.toNat ∧ c.toNat ≤ 122) || c = '_'

/-- a word boundary holds against the neighbouring character (none = string end). -/
def boundaryB : Option Char → Bool
  | none => true
  | some c => !isWordCh c

def sportsWord : List Char := ['S', 'p', 'o', 'r', 't', 's']

/-- scanner for the regex `\bSports\b`: `prev` is the character before the
current position. -/
def hasWordSports : Option Char → List Char → Bool
  | _, [] => false
  | prev, c :: cs =>
    (boundaryB prev && decide ((c :: cs).take 6 = sportsWord) &&
      boundaryB ((c :: cs).drop 6).head?)
    || hasWordSports (some c) cs

def containsSports (s : String) : Bool := hasWordSports none s.data

/-- per-cell vehicle-class rule of lines 63-65: `astype(str)`, regex `^[Lu]`
rewrites to `Luxury`, then `\bSports\b` (applied to the previous rule's output)
rewrites to `Luxury`. -/
def vehCell (c : Cell) : Cell :=
  let s := cellStr c
  let s1 := if headIn s ['L', 'u'] then "Luxury" else s
  .str (if containsSports s1 then "Luxury" else s1)

/-- `standardize_vehicle_class` (lines 58-66). -/
def standardize_vehicle_class (df : Table) : Table :=
  colApply "vehicle_class" .obj vehCell df

/-- per-cell rule of lines 72-74: `astype(str).str.rstrip('%')` then
`pd.to_numeric(errors='coerce')`; parse failures become missing. -/
def clvCell (c : Cell) : Cell :=
  match parseNumQ (rstripPercent (cellStr c)) with
  | some q => .num q
  | none => .missing

/-- regex `/(\d+)/` matched at the head of the list: a slash, a nonempty
maximal digit run, then another slash. -/
def slashAt : List Char → Option Nat
  | [] => none
  | c :: cs =>
    if c = '/' then
      let ds := cs.takeWhile isDigitCh
      if ds ≠ [] ∧ (cs.dropWhile isDigitCh).head? = some '/' then some (digitsVal ds) else none
    else none

/-- leftmost match of the regex `/(\d+)/` (re.search semantics). -/
def slashSearch : List Char → Option Nat
  | [] => none
  | c :: cs =>
    match slashAt (c :: cs) with
    | some n => some n
    | none => slashSearch cs

/-- `str.extract(r'/(\d+)/')` composed with `pd.to_numeric` on the captured
digit group. -/
def extractSlashDigits (s : String) : Option Nat := slashSearch s.data

/-- per-cell rule of lines 76-78 for `number_of_open_complaints`. -/
def cplCell (c : Cell) : Cell :=
  match extractSlashDigits (cellStr c) with
  | some n => .num n
  | none => .missing

/-- `clean_and_convert_numerical` (lines 68-80). -/
def clean_and_convert_numerical (df : Table) : Table :=
  colApply "number_of_open_complaints" .int64 cplCell
    (colApply "customer_lifetime_value" .float64 clvCell df)

/-- `df.drop_duplicates(keep='first')` on the list of rows: keep a row when it
was not seen before. -/
def keepFirstsAux : List (List Cell) → List (List Cell) → List (List Cell)
  | _, [] => []
  | seen, r :: rs =>
    if r ∈ seen then keepFirstsAux seen rs else r :: keepFirstsAux (r :: seen) rs

def keepFirsts (l : List (List Cell)) : List (List Cell) := keepFirstsAux [] l

/-- `remove_duplicates` (lines 82-90): drop duplicate rows keeping the first
occurrence, reset the index, and report the number of rows removed. -/
def remove_duplicates (df : Table) : Table × Nat :=
  let kept := keepFirsts df.rows
  ({ names := df.names, dtypes := df.dtypes
   , index := List.range kept.length, rows := kept },
   df.rows.length - kept.length)

/-- the line printed by line 89. -/
def dupNoticeLine (n : Nat) : String := "Number of duplicate rows removed: " ++ natToStr n

/-- the categorical column list of line 96. -/
def categorical_cols : List String :=
  ["customer", "state", "gender", "education", "policy_type", "vehicle_class"]

/-- the numerical column list of line 101. -/
def numerical_cols : List String :=
  ["total_claim_amount", "monthly_premium_auto", "customer_income", "customer_lifetime_value"]

def fillCellWith (v : Cell) (c : Cell) : Cell := if c = .missing then v else c

/-- `df[col] = df[col].fillna('Unknown')` (lines 97-99); filling a missing cell
of a non-object column upcasts the column to object, as pandas does. -/
def fillUnknownCol (df : Table) (col : String) : Table :=
  if df.hasCol col then
    let d := if (getCells df col).contains .missing ∧ df.dtypeAt col ≠ .obj
             then .obj else df.dtypeAt col
    mapCol df col d (fillCellWith (.str "Unknown"))
  else df

/-- `pd.api.types.is_numeric_dtype` on the modelled dtypes (pandas counts
boolean columns as numeric). -/
def isNumericDt : Dtype → Bool
  | .obj => false
  | _ => true

def cellNums (cs : List Cell) : List ℚ :=
  cs.filterMap (fun c => match c with | .num q => some q | _ => none)

def insertSorted (x : ℚ) : List ℚ → List ℚ
  | [] => [x]
  | y :: ys => if x ≤ y then x :: y :: ys else y :: insertSorted x ys

def sortQ (l : List ℚ) : List ℚ := l.foldr insertSorted []

/-- `Series.median()` over the non-missing values: middle of the sorted values,
or the average of the two middle ones for even counts; none when empty (the
median of an all-missing column is NaN and `fillna(NaN)` is a no-op). -/
def pdMedian (l : List ℚ) : Option ℚ :=
  if l = [] then none
  else
    let s := sortQ l
    if l.length % 2 = 1 then some (s.getD (l.length / 2) 0)
    else some ((s.getD (l.length / 2 - 1) 0 + s.getD (l.length / 2) 0) / 2)

/-- `df[col] = df[col].fillna(df[col].median())` guarded by presence and
numeric dtype (lines 102-104). -/
def fillMedianCol (df : Table) (col : String) : Table :=
  if df.hasCol col ∧ isNumericDt (df.dtypeAt col) then
    match pdMedian (cellNums (getCells df col)) with
    | some m => mapCol df col (df.dtypeAt col) (fillCellWith (.num m))
    | none => df
  else df

/-- `handle_missing_values` (lines 92-109). -/
def handle_missing_values (df : Table) : Table :=
  let df1 := categorical_cols.foldl fillUnknownCol df
  let df2 := numerical_cols.foldl fillMedianCol df1
  if df2.hasCol "number_of_open_complaints" then
    setCol df2 "complaints_missing" .boolDt
      ((getCells df2 "number_of_open_complaints").map (fun c => .bool (isMissingB c)))
  else df2

/-- `main_cleaning_pipeline` (lines 111-127); the second component is the
duplicate-row count reported on the observability channel. -/
def main_cleaning_pipeline (df : Table) : Table × Nat :=
  let df1 := clean_column_names df
  let df2 := standardize_gender df1
  let df3 := standardize_state df2
  let df4 := standardize_education df3
  let df5 := standardize_vehicle_class df4
  let df6 := clean_and_convert_numerical df5
  let df7 := handle_missing_values df6
  remove_duplicates df7

def startNoticeLine : String := "Starting the data cleaning and formatting pipeline..."

def doneNoticeLine : String := "Data cleaning pipeline completed successfully."

/-- the three lines the pipeline writes to standard output. -/
def pipelineNotices (df : Table) : List String :=
  [startNoticeLine, dupNoticeLine (main_cleaning_pipeline df).2, doneNoticeLine]


/- ## Basic lemmas about the table operations -/

theorem colIdx_spec {t : Table} {n : String} {j : Nat} (h : colIdx t n = some j) :
    ∃ hj : j < t.names.length, t.names[j] = n := by
  unfold colIdx at h
  rw [List.findIdx?_eq_some_iff_getElem] at h
  obtain ⟨hj, hp, -⟩ := h
  exact ⟨hj, by simpa using hp⟩

theorem colIdx_lt {t : Table} {n : String} {j : Nat} (h : colIdx t n = some j) :
    j < t.names.length := by
  obtain ⟨hj, -⟩ := colIdx_spec h
  exact hj

theorem colIdx_name {t : Table} {n : String} {j : Nat} (h : colIdx t n = some j) :
    t.names.getD j "" = n := by
  obtain ⟨hj, he⟩ := colIdx_spec h
  rw [List.getD_eq_getElem _ _ hj, he]

theorem colIdx_ne {t : Table} {n nn : String} {j jj : Nat} (hne : n ≠ nn)
    (h : colIdx t n = some j) (h2 : colIdx t nn = some jj) : j ≠ jj := by
  intro e
  apply hne
  rw [← colIdx_name h, ← colIdx_name h2, e]

theorem hasCol_iff {t : Table} {n : String} :
    t.hasCol n = true ↔ ∃ j, colIdx t n = some j := by
  rw [← Option.isSome_iff_exists]
  have h1 : t.hasCol n = true ↔ n ∈ t.names := List.elem_iff
  have h2 : (colIdx t n).isSome = t.names.any (· == n) := List.findIdx?_isSome
  rw [h1, h2]
  simp only [List.any_eq_true, beq_iff_eq]
  exact ⟨fun h => ⟨n, h, rfl⟩, fun ⟨x, hx, e⟩ => e ▸ hx⟩

theorem hasCol_of_colIdx {t : Table} {n : String} {j : Nat} (h : colIdx t n = some j) :
    t.hasCol n = true := hasCol_iff.mpr ⟨j, h⟩

theorem colIdx_none_of_not_hasCol {t : Table} {n : String} (h : ¬ t.hasCol n = true) :
    colIdx t n = none := by
  cases hc : colIdx t n with
  | none => rfl
  | some j => exact absurd (hasCol_of_colIdx hc) h

theorem mapCol_names (t : Table) (n : String) (d : Dtype) (f : Cell → Cell) :
    (mapCol t n d f).names = t.names := by
  unfold mapCol
  cases colIdx t n <;> rfl

theorem mapCol_index (t : Table) (n : String) (d : Dtype) (f : Cell → Cell) :
    (mapCol t n d f).index = t.index := by
  unfold mapCol
  cases colIdx t n <;> rfl

theorem mapCol_rows_of {t : Table} {n : String} {j : Nat} (d : Dtype) (f : Cell → Cell)
    (h : colIdx t n = some j) :
    (mapCol t n d f).rows = t.rows.map (fun r => r.set j (f (r.getD j .missing))) := by
  unfold mapCol
  rw [h]

theorem mapCol_dtypes_of {t : Table} {n : String} {j : Nat} (d : Dtype) (f : Cell → Cell)
    (h : colIdx t n = some j) :
    (mapCol t n d f).dtypes = t.dtypes.set j d := by
  unfold mapCol
  rw [h]

theorem mapCol_of_none {t : Table} {n : String} (d : Dtype) (f : Cell → Cell)
    (h : colIdx t n = none) : mapCol t n d f = t := by
  unfold mapCol
  rw [h]

theorem mapCol_nRows (t : Table) (n : String) (d : Dtype) (f : Cell → Cell) :
    (mapCol t n d f).nRows = t.nRows := by
  unfold Table.nRows
  cases h : colIdx t n with
  | none => rw [mapCol_of_none _ _ h]
  | some j => rw [mapCol_rows_of _ _ h, List.length_map]

theorem colIdx_mapCol (t : Table) (n : String) (d : Dtype) (f : Cell → Cell) (n2 : String) :
    colIdx (mapCol t n d f) n2 = colIdx t n2 := by
  unfold colIdx
  rw [mapCol_names]

theorem hasCol_mapCol (t : Table) (n : String) (d : Dtype) (f : Cell → Cell) (n2 : String) :
    (mapCol t n d f).hasCol n2 = t.hasCol n2 := by
  unfold Table.hasCol
  rw [mapCol_names]

theorem getCells_length {t : Table} {n : String} (h : t.hasCol n = true) :
    (getCells t n).length = t.nRows := by
  obtain ⟨j, hj⟩ := hasCol_iff.mp h
  simp only [getCells, hj]
  exact List.length_map ..

theorem getCells_mapCol_self {t : Table} {n : String} {j : Nat} {d : Dtype} {f : Cell → Cell}
    (hR : Rect t) (h : colIdx t n = some j) :
    getCells (mapCol t n d f) n = (getCells t n).map f := by
  have hc : colIdx (mapCol t n d f) n = some j := by rw [colIdx_mapCol, h]
  simp only [getCells, hc, h, mapCol_rows_of d f h]
  simp only [List.map_map]
  apply List.map_congr_left
  intro r hr
  have hjr : j < r.length := by rw [hR.2 r hr]; exact colIdx_lt h
  simp [List.getD_eq_getElem?_getD, List.getElem?_set, hjr]

theorem getCells_mapCol_ne {t : Table} {n n2 : String} {d : Dtype} {f : Cell → Cell}
    (hne : n2 ≠ n) :
    getCells (mapCol t n d f) n2 = getCells t n2 := by
  have hc : colIdx (mapCol t n d f) n2 = colIdx t n2 := colIdx_mapCol ..
  cases h : colIdx t n with
  | none => rw [mapCol_of_none _ _ h]
  | some j =>
    cases h2 : colIdx t n2 with
    | none => simp only [getCells, hc, h2]
    | some j2 =>
      have hjj : j ≠ j2 := colIdx_ne (fun e => hne e.symm) h h2
      simp only [getCells, hc, h2, mapCol_rows_of d f h]
      simp only [List.map_map]
      apply List.map_congr_left
      intro r hr
      simp [List.getD_eq_getElem?_getD, List.getElem?_set, hjj]

theorem dtypeAt_mapCol_self {t : Table} {n : String} {j : Nat} {d : Dtype} {f : Cell → Cell}
    (hR : Rect t) (h : colIdx t n = some j) :
    (mapCol t n d f).dtypeAt n = d := by
  have hc : colIdx (mapCol t n d f) n = some j := by rw [colIdx_mapCol, h]
  simp only [Table.dtypeAt, hc, mapCol_dtypes_of d f h]
  have hj : j < t.dtypes.length := by rw [hR.1]; exact colIdx_lt h
  simp [List.getD_eq_getElem?_getD, List.getElem?_set, hj]

theorem dtypeAt_mapCol_ne {t : Table} {n n2 : String} {d : Dtype} {f : Cell → Cell}
    (hne : n2 ≠ n) :
    (mapCol t n d f).dtypeAt n2 = t.dtypeAt n2 := by
  have hc : colIdx (mapCol t n d f) n2 = colIdx t n2 := colIdx_mapCol ..
  cases h : colIdx t n with
  | none => rw [mapCol_of_none _ _ h]
  | some j =>
    cases h2 : colIdx t n2 with
    | none => simp only [Table.dtypeAt, hc, h2]
    | some j2 =>
      have hjj : j ≠ j2 := colIdx_ne (fun e => hne e.symm) h h2
      simp only [Table.dtypeAt, hc, h2, mapCol_dtypes_of d f h]
      simp [List.getD_eq_getElem?_getD, List.getElem?_set, hjj]

theorem rect_mapCol {t : Table} (hR : Rect t) (n : String) (d : Dtype) (f : Cell → Cell) :
    Rect (mapCol t n d f) := by
  cases h : colIdx t n with
  | none => rw [mapCol_of_none _ _ h]; exact hR
  | some j =>
    constructor
    · rw [mapCol_dtypes_of d f h, mapCol_names]
      simpa using hR.1
    · rw [mapCol_rows_of d f h, mapCol_names]
      intro r hr
      simp only [List.mem_map] at hr
      obtain ⟨r0, hr0, rfl⟩ := hr
      simpa using hR.2 r0 hr0

theorem colApply_eq_mapCol (n : String) (d : Dtype) (f : Cell → Cell) (t : Table) :
    colApply n d f t = mapCol t n d f := by
  unfold colApply
  by_cases h : t.hasCol n = true
  · rw [if_pos h]
  · rw [if_neg h, mapCol_of_none _ _ (colIdx_none_of_not_hasCol h)]

/- ## Lemmas about column assignment -/

theorem map_getD_zipWith_set {j : Nat} (rows : List (List Cell)) (cs : List Cell)
    (hlen : ∀ r ∈ rows, j < r.length) (hcs : cs.length = rows.length) :
    (List.zipWith (fun r c => r.set j c) rows cs).map (fun r => r.getD j .missing) = cs := by
  induction rows generalizing cs with
  | nil =>
    cases cs with
    | nil => rfl
    | cons c cs2 => simp at hcs
  | cons r rs ih =>
    cases cs with
    | nil => simp at hcs
    | cons c cs2 =>
      have hjr : j < r.length := hlen r (by simp)
      simp only [List.zipWith_cons_cons, List.map_cons, List.cons.injEq]
      refine ⟨?_, ?_⟩
      · simp [List.getD_eq_getElem?_getD, List.getElem?_set, hjr]
      · exact ih cs2 (fun r2 h2 => hlen r2 (by simp [h2])) (by simpa using hcs)

theorem map_getD_zipWith_set_ne {j j2 : Nat} (hne : j ≠ j2)
    (rows : List (List Cell)) (cs : List Cell) (hcs : cs.length = rows.length) :
    (List.zipWith (fun r c => r.set j c) rows cs).map (fun r => r.getD j2 .missing)
      = rows.map (fun r => r.getD j2 .missing) := by
  induction rows generalizing cs with
  | nil => simp
  | cons r rs ih =>
    cases cs with
    | nil => simp at hcs
    | cons c cs2 =>
      simp only [List.zipWith_cons_cons, List.map_cons, List.cons.injEq]
      refine ⟨?_, ?_⟩
      · simp [List.getD_eq_getElem?_getD, List.getElem?_set, hne]
      · exact ih cs2 (by simpa using hcs)

theorem map_getD_zipWith_append {L : Nat} (rows : List (List Cell)) (cs : List Cell)
    (hlen : ∀ r ∈ rows, r.length = L) (hcs : cs.length = rows.length) :
    (List.zipWith (fun r c => r ++ [c]) rows cs).map (fun r => r.getD L .missing) = cs := by
  induction rows generalizing cs with
  | nil =>
    cases cs with
    | nil => rfl
    | cons c cs2 => simp at hcs
  | cons r rs ih =>
    cases cs with
    | nil => simp at hcs
    | cons c cs2 =>
      have hr : r.length = L := hlen r (by simp)
      simp only [List.zipWith_cons_cons, List.map_cons, List.cons.injEq]
      refine ⟨?_, ?_⟩
      · rw [List.getD_eq_getElem?_getD, ← hr, List.getElem?_concat_length]
        rfl
      · exact ih cs2 (fun r2 h2 => hlen r2 (by simp [h2])) (by simpa using hcs)

theorem map_getD_zipWith_append_lt {j2 : Nat} (rows : List (List Cell)) (cs : List Cell)
    (hlen : ∀ r ∈ rows, j2 < r.length) (hcs : cs.length = rows.length) :
    (List.zipWith (fun r c => r ++ [c]) rows cs).map (fun r => r.getD j2 .missing)
      = rows.map (fun r => r.getD j2 .missing) := by
  induction rows generalizing cs with
  | nil => simp
  | cons r rs ih =>
    cases cs with
    | nil => simp at hcs
    | cons c cs2 =>
      have hjr : j2 < r.length := hlen r (by simp)
      simp only [List.zipWith_cons_cons, List.map_cons, List.cons.injEq]
      refine ⟨?_, ?_⟩
      · simp [List.getD_eq_getElem?_getD, List.getElem?_append_left hjr]
      · exact ih cs2 (fun r2 h2 => hlen r2 (by simp [h2])) (by simpa using hcs)

theorem setCol_index (t : Table) (n : String) (d : Dtype) (cs : List Cell) :
    (setCol t n d cs).index = t.index := by
  unfold setCol
  cases colIdx t n <;> rfl

theorem setCol_names_of_some {t : Table} {n : String} {j : Nat} (d : Dtype) (cs : List Cell)
    (h : colIdx t n = some j) : (setCol t n d cs).names = t.names := by
  unfold setCol
  rw [h]

theorem setCol_names_of_none {t : Table} {n : String} (d : Dtype) (cs : List Cell)
    (h : colIdx t n = none) : (setCol t n d cs).names = t.names ++ [n] := by
  unfold setCol
  rw [h]

theorem setCol_nRows (t : Table) (n : String) (d : Dtype) (cs : List Cell)
    (hcs : cs.length = t.nRows) : (setCol t n d cs).nRows = t.nRows := by
  unfold setCol Table.nRows at *
  cases colIdx t n <;> simp [List.length_zipWith, hcs]

theorem contains_iff_mem {l : List String} {a : String} : l.contains a = true ↔ a ∈ l :=
  List.elem_iff

theorem hasCol_setCol_self (t : Table) (n : String) (d : Dtype) (cs : List Cell) :
    (setCol t n d cs).hasCol n = true := by
  unfold setCol
  cases h : colIdx t n with
  | some j =>
    show t.names.contains n = true
    exact hasCol_of_colIdx h
  | none =>
    show (t.names ++ [n]).contains n = true
    exact contains_iff_mem.mpr (by simp)

theorem hasCol_setCol_ne {t : Table} {n n2 : String} (d : Dtype) (cs : List Cell)
    (hne : n2 ≠ n) : (setCol t n d cs).hasCol n2 = t.hasCol n2 := by
  unfold setCol
  cases h : colIdx t n with
  | some j => rfl
  | none =>
    show (t.names ++ [n]).contains n2 = t.names.contains n2
    rw [Bool.eq_iff_iff, contains_iff_mem, contains_iff_mem]
    simp [List.mem_append, hne]

theorem colIdx_setCol_append_self {t : Table} {n : String} (d : Dtype) (cs : List Cell)
    (h : colIdx t n = none) :
    colIdx (setCol t n d cs) n = some t.names.length := by
  unfold colIdx at *
  rw [setCol_names_of_none d cs h, List.findIdx?_append, h]
  simp

theorem colIdx_setCol_append_ne {t : Table} {n n2 : String} (d : Dtype) (cs : List Cell)
    (hn : colIdx t n = none) (hne : n2 ≠ n) :
    colIdx (setCol t n d cs) n2 = colIdx t n2 := by
  unfold colIdx at *
  rw [setCol_names_of_none d cs hn, List.findIdx?_append]
  cases h2 : t.names.findIdx? (· == n2) with
  | some j => simp
  | none =>
    simp only [Option.none_or]
    have : ([n].findIdx? (· == n2)) = none := by
      simp [List.findIdx?_cons]
      exact fun e => absurd e.symm hne
    rw [this]
    simp

theorem getCells_setCol_self {t : Table} {n : String} (d : Dtype) (cs : List Cell)
    (hR : Rect t) (hcs : cs.length = t.nRows) :
    getCells (setCol t n d cs) n = cs := by
  cases h : colIdx t n with
  | some j =>
    have hc : colIdx (setCol t n d cs) n = some j := by
      unfold colIdx at *
      rw [setCol_names_of_some d cs h]
      exact h
    have hrows : (setCol t n d cs).rows = t.rows.zipWith (fun r c => r.set j c) cs := by
      unfold setCol
      rw [h]
    simp only [getCells, hc, hrows]
    exact map_getD_zipWith_set t.rows cs
      (fun r hr => by rw [hR.2 r hr]; exact colIdx_lt h) hcs
  | none =>
    have hc : colIdx (setCol t n d cs) n = some t.names.length :=
      colIdx_setCol_append_self d cs h
    have hrows : (setCol t n d cs).rows = t.rows.zipWith (fun r c => r ++ [c]) cs := by
      unfold setCol
      rw [h]
    simp only [getCells, hc, hrows]
    exact map_getD_zipWith_append t.rows cs (fun r hr => hR.2 r hr) hcs

theorem getCells_setCol_ne {t : Table} {n n2 : String} (d : Dtype) (cs : List Cell)
    (hR : Rect t) (hcs : cs.length = t.nRows) (hne : n2 ≠ n) :
    getCells (setCol t n d cs) n2 = getCells t n2 := by
  cases h : colIdx t n with
  | some j =>
    have hc : colIdx (setCol t n d cs) n2 = colIdx t n2 := by
      unfold colIdx at *
      rw [setCol_names_of_some d cs h]
    have hrows : (setCol t n d cs).rows = t.rows.zipWith (fun r c => r.set j c) cs := by
      unfold setCol
      rw [h]
    cases h2 : colIdx t n2 with
    | none => simp only [getCells, hc, h2]
    | some j2 =>
      have hjj : j ≠ j2 := colIdx_ne (fun e => hne e.symm) h h2
      simp only [getCells, hc, h2, hrows]
      exact map_getD_zipWith_set_ne hjj t.rows cs hcs
  | none =>
    have hc : colIdx (setCol t n d cs) n2 = colIdx t n2 :=
      colIdx_setCol_append_ne d cs h hne
    have hrows : (setCol t n d cs).rows = t.rows.zipWith (fun r c => r ++ [c]) cs := by
      unfold setCol
      rw [h]
    cases h2 : colIdx t n2 with
    | none => simp only [getCells, hc, h2]
    | some j2 =>
      simp only [getCells, hc, h2, hrows]
      exact map_getD_zipWith_append_lt t.rows cs
        (fun r hr => by rw [hR.2 r hr]; exact colIdx_lt h2) hcs

theorem dtypeAt_setCol_self {t : Table} {n : String} (d : Dtype) (cs : List Cell)
    (hR : Rect t) : (setCol t n d cs).dtypeAt n = d := by
  cases h : colIdx t n with
  | some j =>
    have hc : colIdx (setCol t n d cs) n = some j := by
      unfold colIdx at *
      rw [setCol_names_of_some d cs h]
      exact h
    have hd : (setCol t n d cs).dtypes = t.dtypes.set j d := by
      unfold setCol
      rw [h]
    simp only [Table.dtypeAt, hc, hd]
    have hj : j < t.dtypes.length := by rw [hR.1]; exact colIdx_lt h
    simp [List.getD_eq_getElem?_getD, List.getElem?_set, hj]
  | none =>
    have hc : colIdx (setCol t n d cs) n = some t.names.length :=
      colIdx_setCol_append_self d cs h
    have hd : (setCol t n d cs).dtypes = t.dtypes ++ [d] := by
      unfold setCol
      rw [h]
    simp only [Table.dtypeAt, hc, hd]
    rw [List.getD_eq_getElem?_getD, ← hR.1, List.getElem?_concat_length]
    rfl

theorem rect_setCol {t : Table} (hR : Rect t) (n : String) (d : Dtype) (cs : List Cell)
    (hcs : cs.length = t.nRows) : Rect (setCol t n d cs) := by
  cases h : colIdx t n with
  | some j =>
    have hnm : (setCol t n d cs).names = t.names := setCol_names_of_some d cs h
    have hd : (setCol t n d cs).dtypes = t.dtypes.set j d := by
      unfold setCol
      rw [h]
    have hrows : (setCol t n d cs).rows = t.rows.zipWith (fun r c => r.set j c) cs := by
      unfold setCol
      rw [h]
    refine ⟨by rw [hnm, hd]; simpa using hR.1, ?_⟩
    rw [hnm, hrows]
    intro r hr
    rw [List.mem_iff_getElem] at hr
    obtain ⟨i, hi, rfl⟩ := hr
    rw [List.getElem_zipWith]
    have hi2 : i < t.rows.length := by
      simp [List.length_zipWith] at hi
      omega
    have : t.rows[i] ∈ t.rows := List.getElem_mem ..
    simpa using hR.2 _ this
  | none =>
    have hnm : (setCol t n d cs).names = t.names ++ [n] := setCol_names_of_none d cs h
    have hd : (setCol t n d cs).dtypes = t.dtypes ++ [d] := by
      unfold setCol
      rw [h]
    have hrows : (setCol t n d cs).rows = t.rows.zipWith (fun r c => r ++ [c]) cs := by
      unfold setCol
      rw [h]
    refine ⟨by rw [hnm, hd]; simpa using hR.1, ?_⟩
    rw [hnm, hrows]
    intro r hr
    rw [List.mem_iff_getElem] at hr
    obtain ⟨i, hi, rfl⟩ := hr
    rw [List.getElem_zipWith]
    have hi2 : i < t.rows.length := by
      simp [List.length_zipWith] at hi
      omega
    have : t.rows[i] ∈ t.rows := List.getElem_mem ..
    simp [hR.2 _ this]

/- ## Lemmas about duplicate removal -/

theorem keepFirstsAux_sublist (seen l : List (List Cell)) :
    (keepFirstsAux seen l).Sublist l := by
  induction l generalizing seen with
  | nil => simp [keepFirstsAux]
  | cons r rs ih =>
    unfold keepFirstsAux
    by_cases h : r ∈ seen
    · rw [if_pos h]
      exact (ih seen).cons r
    · rw [if_neg h]
      exact (ih (r :: seen)).cons₂ r

theorem mem_keepFirstsAux {x : List Cell} {seen l : List (List Cell)} :
    x ∈ keepFirstsAux seen l ↔ x ∈ l ∧ x ∉ seen := by
  induction l generalizing seen with
  | nil => simp [keepFirstsAux]
  | cons r rs ih =>
    unfold keepFirstsAux
    by_cases h : r ∈ seen
    · rw [if_pos h, ih]
      constructor
      · rintro ⟨h1, h2⟩
        exact ⟨List.mem_cons_of_mem r h1, h2⟩
      · rintro ⟨h1, h2⟩
        rcases List.mem_cons.mp h1 with rfl | h1
        · exact absurd h h2
        · exact ⟨h1, h2⟩
    · rw [if_neg h]
      simp only [List.mem_cons, ih, List.mem_cons]
      constructor
      · rintro (rfl | ⟨h1, h2⟩)
        · exact ⟨Or.inl rfl, h⟩
        · exact ⟨Or.inr h1, fun hx => h2 (Or.inr hx)⟩
      · rintro ⟨rfl | h1, h2⟩
        · exact Or.inl rfl
        · by_cases hx : x = r
          · exact Or.inl hx
          · exact Or.inr ⟨h1, fun hs => hs.elim hx h2⟩

theorem nodup_keepFirstsAux (seen l : List (List Cell)) :
    (keepFirstsAux seen l).Nodup := by
  induction l generalizing seen with
  | nil => simp [keepFirstsAux]
  | cons r rs ih =>
    unfold keepFirstsAux
    by_cases h : r ∈ seen
    · rw [if_pos h]
      exact ih seen
    · rw [if_neg h]
      refine List.Nodup.cons ?_ (ih (r :: seen))
      intro hmem
      exact (mem_keepFirstsAux.mp hmem).2 (List.mem_cons_self r seen)

theorem keepFirstsAux_eq_self {seen l : List (List Cell)} (hl : l.Nodup)
    (hd : ∀ x ∈ l, x ∉ seen) : keepFirstsAux seen l = l := by
  induction l generalizing seen with
  | nil => rfl
  | cons r rs ih =>
    unfold keepFirstsAux
    rw [if_neg (hd r (List.mem_cons_self r rs))]
    congr 1
    apply ih (List.Nodup.of_cons hl)
    intro x hx
    intro hmem
    rcases List.mem_cons.mp hmem with rfl | hmem
    · exact (List.nodup_cons.mp hl).1 hx
    · exact hd x (List.mem_cons_of_mem r hx) hmem

theorem keepFirsts_sublist (l : List (List Cell)) : (keepFirsts l).Sublist l :=
  keepFirstsAux_sublist [] l

theorem mem_keepFirsts {x : List Cell} {l : List (List Cell)} :
    x ∈ keepFirsts l ↔ x ∈ l := by
  unfold keepFirsts
  rw [mem_keepFirstsAux]
  simp

theorem nodup_keepFirsts (l : List (List Cell)) : (keepFirsts l).Nodup :=
  nodup_keepFirstsAux [] l

theorem keepFirsts_eq_self {l : List (List Cell)} (h : l.Nodup) : keepFirsts l = l :=
  keepFirstsAux_eq_self h (by simp)

theorem keepFirsts_length_le (l : List (List Cell)) : (keepFirsts l).length ≤ l.length :=
  (keepFirsts_sublist l).length_le

/- ## Claim C3: the vehicle-class standardizer on "luxury car" -/

/-- C3 counterexample: the claim states that the standardizer maps the cell
value "luxury car" to "Luxury"; in fact the first rule only fires on initial
'L' or 'u' and the second only on the whole word "Sports", so "luxury car"
is left unchanged (while "Sports Car" does map to "Luxury" and "SUV" is
unchanged). -/
theorem vehicle_class_claim_counterexample :
    getCells
      (standardize_vehicle_class
        { names := ["vehicle_class"], dtypes := [.obj], index := [0, 1, 2]
        , rows := [[.str "luxury car"], [.str "Sports Car"], [.str "SUV"]] })
      "vehicle_class"
      = [Cell.str "luxury car", Cell.str "Luxury", Cell.str "SUV"]
    ∧ Cell.str "luxury car" ≠ Cell.str "Luxury" := by
  decide

/-- C3 (amended): the vehicle-class standardizer leaves "luxury car" unchanged
(no rewrite rule fires on it: the first fires only on cells whose string form
starts with 'L' or 'u', the second only on whole-word "Sports"), while
"Sports Car" maps to "Luxury" and "SUV" is unchanged; in general any cell
matching neither rule keeps its string form. -/
theorem vehicle_class_amended :
    getCells
      (standardize_vehicle_class
        { names := ["vehicle_class"], dtypes := [.obj], index := [0, 1, 2]
        , rows := [[.str "luxury car"], [.str "Sports Car"], [.str "SUV"]] })
      "vehicle_class"
      = [Cell.str "luxury car", Cell.str "Luxury", Cell.str "SUV"]
    ∧ (∀ c : Cell, headIn (cellStr c) ['L', 'u'] = false →
        containsSports (cellStr c) = false → vehCell c = .str (cellStr c)) := by
  constructor
  · decide
  · intro c h1 h2
    simp [vehCell, h1, h2]

/-- C3 witness: the amended statement applied to the concrete cell
"luxury car". -/
theorem vehicle_class_amended_witness :
    (headIn (cellStr (Cell.str "luxury car")) ['L', 'u'] = false
      ∧ containsSports (cellStr (Cell.str "luxury car")) = false)
    ∧ vehCell (Cell.str "luxury car") = Cell.str "luxury car" :=
  ⟨⟨by decide, by decide⟩, vehicle_class_amended.2 (Cell.str "luxury car") (by decide) (by decide)⟩

/- ## Claim C2: the gender standardizer -/

/-- the per-cell function the C2 claim describes, written from the spec's
words: missing becomes the empty string, and the fallback output is the
trimmed upper-cased string. -/
def genderCellClaimed (c : Cell) : Cell :=
  let x := upperStr (stripStr (if c = .missing then "" else cellStr c))
  if headIsCh x 'F' then .str "F"
  else if headIsCh x 'M' then .str "M"
  else .str x

/-- C2 counterexample: the claim predicts "Other" maps to "OTHER" and a missing
cell to the empty string; the code returns the else-branch cell unchanged
("Other" stays "Other") and stringifies missing to "nan" before the rule. -/
theorem gender_standardizer_claim_counterexample :
    getCells
      (standardize_gender
        { names := ["gender"], dtypes := [.obj], index := [0, 1]
        , rows := [[.str "Other"], [.missing]] })
      "gender" = [Cell.str "Other", Cell.str "nan"]
    ∧ [Cell.str "Other", Cell.missing].map genderCellClaimed
        = [Cell.str "OTHER", Cell.str ""]
    ∧ Cell.str "Other" ≠ Cell.str "OTHER" := by
  decide

/-- C2 (amended): for every cell of the gender column the standardizer converts
the cell to its string form (missing values become the string "nan"), and if
the trimmed upper-cased form starts with 'F' the output is "F", if it starts
with 'M' the output is "M", and otherwise the output is the original string
form unchanged (so "Other" maps to "Other"); other columns and the column
names are untouched. -/
theorem gender_standardizer_amended (t : Table) (hR : Rect t) {j : Nat}
    (h : colIdx t "gender" = some j) :
    getCells (standardize_gender t) "gender" = (getCells t "gender").map genderCell
    ∧ (∀ n2, n2 ≠ "gender" → getCells (standardize_gender t) n2 = getCells t n2)
    ∧ (standardize_gender t).names = t.names
    ∧ genderCell (.str "female") = .str "F"
    ∧ genderCell (.str " f ") = .str "F"
    ∧ genderCell (.str "Male") = .str "M"
    ∧ genderCell (.str "Other") = .str "Other"
    ∧ genderCell .missing = .str "nan" := by
  rw [show standardize_gender t = mapCol t "gender" .obj genderCell from colApply_eq_mapCol ..]
  exact ⟨getCells_mapCol_self hR h, fun n2 hne => getCells_mapCol_ne hne,
    mapCol_names .., by decide, by decide, by decide, by decide, by decide⟩

/-- C2 witness: the amended statement applied to a concrete one-column table. -/
theorem gender_standardizer_amended_witness :
    getCells
      (standardize_gender
        { names := ["gender"], dtypes := [.obj], index := [0, 1, 2]
        , rows := [[.str "female"], [.str "Other"], [.missing]] })
      "gender"
      = ([Cell.str "female", Cell.str "Other", Cell.missing].map genderCell) := by
  have h := gender_standardizer_amended
    { names := ["gender"], dtypes := [.obj], index := [0, 1, 2]
    , rows := [[.str "female"], [.str "Other"], [.missing]] }
    (by decide) (j := 0) (by decide)
  rw [h.1]
  decide

/- ## Claim C5: the number_of_open_complaints cleaner -/

theorem slashAt_eq_some {l : List Char} {n : Nat} (h : slashAt l = some n) :
    ∃ ds rest, l = '/' :: (ds ++ '/' :: rest) ∧ ds ≠ []
      ∧ (∀ ch ∈ ds, isDigitCh ch = true) ∧ digitsVal ds = n := by
  cases l with
  | nil => simp [slashAt] at h
  | cons c cs =>
    simp only [slashAt] at h
    by_cases hc : c = '/'
    · subst hc
      rw [if_pos rfl] at h
      by_cases hcond : (cs.takeWhile isDigitCh ≠ [] ∧ (cs.dropWhile isDigitCh).head? = some '/')
      · rw [if_pos hcond] at h
        obtain ⟨hne, hhd⟩ := hcond
        obtain ⟨rest, hrest⟩ := List.head?_eq_some_iff.mp hhd
        refine ⟨cs.takeWhile isDigitCh, rest, ?_, hne,
          fun ch hch => List.mem_takeWhile_imp hch, Option.some.inj h⟩
        have : cs = cs.takeWhile isDigitCh ++ cs.dropWhile isDigitCh :=
          (List.takeWhile_append_dropWhile isDigitCh cs).symm
        rw [hrest] at this
        rw [← this]
      · rw [if_neg hcond] at h
        cases h
    · rw [if_neg hc] at h
      cases h

theorem slashSearch_eq_some {l : List Char} {n : Nat} (h : slashSearch l = some n) :
    ∃ pre ds rest, l = pre ++ '/' :: (ds ++ '/' :: rest) ∧ ds ≠ []
      ∧ (∀ ch ∈ ds, isDigitCh ch = true) ∧ digitsVal ds = n := by
  induction l with
  | nil => simp [slashSearch] at h
  | cons c cs ih =>
    unfold slashSearch at h
    cases ha : slashAt (c :: cs) with
    | some m =>
      rw [ha] at h
      obtain ⟨ds, rest, heq, hne, hdig, hval⟩ := slashAt_eq_some ha
      exact ⟨[], ds, rest, by simpa using heq, hne, hdig, by rw [hval]; exact Option.some.inj h⟩
    | none =>
      rw [ha] at h
      obtain ⟨pre, ds, rest, heq, hne, hdig, hval⟩ := ih h
      exact ⟨c :: pre, ds, rest, by simp [heq], hne, hdig, hval⟩

/-- C5 (confirmed): for every cell of the number_of_open_complaints column the
numeric cleaner extracts the first digit run enclosed between two '/'
characters of the cell's string form and yields it as a (nullable) integer
cell of an integer dtype column; when no such pattern exists the cell becomes
missing and no error is raised.  In particular "Complaint/3/closed" yields 3
and "no match" yields missing. -/
theorem complaints_numeric_cleaner (t : Table) (hR : Rect t) {j : Nat}
    (h : colIdx t "number_of_open_complaints" = some j) :
    getCells (clean_and_convert_numerical t) "number_of_open_complaints"
      = (getCells t "number_of_open_complaints").map cplCell
    ∧ (clean_and_convert_numerical t).dtypeAt "number_of_open_complaints" = .int64
    ∧ (∀ c, extractSlashDigits (cellStr c) = none → cplCell c = .missing)
    ∧ (∀ c n, extractSlashDigits (cellStr c) = some n →
        cplCell c = .num n ∧
        ∃ pre ds rest, (cellStr c).data = pre ++ '/' :: (ds ++ '/' :: rest)
          ∧ ds ≠ [] ∧ (∀ ch ∈ ds, isDigitCh ch = true) ∧ digitsVal ds = n)
    ∧ cplCell (.str "Complaint/3/closed") = .num 3
    ∧ cplCell (.str "no match") = .missing := by
  have hu : clean_and_convert_numerical t
      = mapCol (mapCol t "customer_lifetime_value" .float64 clvCell)
          "number_of_open_complaints" .int64 cplCell := by
    unfold clean_and_convert_numerical
    rw [colApply_eq_mapCol, colApply_eq_mapCol]
  have hRu : Rect (mapCol t "customer_lifetime_value" .float64 clvCell) := rect_mapCol hR ..
  have hcu : colIdx (mapCol t "customer_lifetime_value" .float64 clvCell)
      "number_of_open_complaints" = some j := by
    rw [colIdx_mapCol]
    exact h
  refine ⟨?_, ?_, ?_, ?_, by decide, by decide⟩
  · rw [hu, getCells_mapCol_self hRu hcu, getCells_mapCol_ne (by decide)]
  · rw [hu]
    exact dtypeAt_mapCol_self hRu hcu
  · intro c hc
    simp [cplCell, hc]
  · intro c n hc
    exact ⟨by simp [cplCell, hc], slashSearch_eq_some hc⟩

/-- C5 witness: the cleaner applied to a concrete two-row table. -/
theorem complaints_numeric_cleaner_witness :
    getCells
      (clean_and_convert_numerical
        { names := ["number_of_open_complaints"], dtypes := [.obj], index := [0, 1]
        , rows := [[.str "Complaint/3/closed"], [.str "no match"]] })
      "number_of_open_complaints"
      = [Cell.num 3, Cell.missing] := by
  have h := complaints_numeric_cleaner
    { names := ["number_of_open_complaints"], dtypes := [.obj], index := [0, 1]
    , rows := [[.str "Complaint/3/closed"], [.str "no match"]] }
    (by decide) (j := 0) (by decide)
  rw [h.1]
  decide

/- ## Lemmas about the missing-value fills -/

theorem fillUnknownCol_names (t : Table) (col : String) :
    (fillUnknownCol t col).names = t.names := by
  unfold fillUnknownCol
  by_cases h : t.hasCol col = true
  · rw [if_pos h, mapCol_names]
  · rw [if_neg h]

theorem fillUnknownCol_index (t : Table) (col : String) :
    (fillUnknownCol t col).index = t.index := by
  unfold fillUnknownCol
  by_cases h : t.hasCol col = true
  · rw [if_pos h, mapCol_index]
  · rw [if_neg h]

theorem fillUnknownCol_nRows (t : Table) (col : String) :
    (fillUnknownCol t col).nRows = t.nRows := by
  unfold fillUnknownCol
  by_cases h : t.hasCol col = true
  · rw [if_pos h, mapCol_nRows]
  · rw [if_neg h]

theorem rect_fillUnknownCol {t : Table} (hR : Rect t) (col : String) :
    Rect (fillUnknownCol t col) := by
  unfold fillUnknownCol
  by_cases h : t.hasCol col = true
  · rw [if_pos h]
    exact rect_mapCol hR ..
  · rw [if_neg h]
    exact hR

theorem getCells_fillUnknownCol_ne {t : Table} {col n2 : String} (hne : n2 ≠ col) :
    getCells (fillUnknownCol t col) n2 = getCells t n2 := by
  unfold fillUnknownCol
  by_cases h : t.hasCol col = true
  · rw [if_pos h]
    exact getCells_mapCol_ne hne
  · rw [if_neg h]

theorem dtypeAt_fillUnknownCol_ne {t : Table} {col n2 : String} (hne : n2 ≠ col) :
    (fillUnknownCol t col).dtypeAt n2 = t.dtypeAt n2 := by
  unfold fillUnknownCol
  by_cases h : t.hasCol col = true
  · rw [if_pos h]
    exact dtypeAt_mapCol_ne hne
  · rw [if_neg h]

theorem getCells_fillUnknownCol_self {t : Table} {col : String} (hR : Rect t)
    (hHas : t.hasCol col = true) :
    getCells (fillUnknownCol t col) col
      = (getCells t col).map (fillCellWith (.str "Unknown")) := by
  obtain ⟨j, hj⟩ := hasCol_iff.mp hHas
  unfold fillUnknownCol
  rw [if_pos hHas]
  exact getCells_mapCol_self hR hj

theorem fillMedianCol_eq_cases (t : Table) (col : String) :
    fillMedianCol t col = t ∨
      ∃ m, pdMedian (cellNums (getCells t col)) = some m ∧
        fillMedianCol t col = mapCol t col (t.dtypeAt col) (fillCellWith (.num m)) := by
  unfold fillMedianCol
  by_cases h : (t.hasCol col = true ∧ isNumericDt (t.dtypeAt col) = true)
  · rw [if_pos h]
    cases hm : pdMedian (cellNums (getCells t col)) with
    | none => exact Or.inl rfl
    | some m => exact Or.inr ⟨m, rfl, rfl⟩
  · rw [if_neg h]
    exact Or.inl rfl

theorem fillMedianCol_names (t : Table) (col : String) :
    (fillMedianCol t col).names = t.names := by
  rcases fillMedianCol_eq_cases t col with h | ⟨m, -, h⟩ <;> rw [h]
  rw [mapCol_names]

theorem fillMedianCol_index (t : Table) (col : String) :
    (fillMedianCol t col).index = t.index := by
  rcases fillMedianCol_eq_cases t col with h | ⟨m, -, h⟩ <;> rw [h]
  rw [mapCol_index]

theorem fillMedianCol_nRows (t : Table) (col : String) :
    (fillMedianCol t col).nRows = t.nRows := by
  rcases fillMedianCol_eq_cases t col with h | ⟨m, -, h⟩ <;> rw [h]
  rw [mapCol_nRows]

theorem rect_fillMedianCol {t : Table} (hR : Rect t) (col : String) :
    Rect (fillMedianCol t col) := by
  rcases fillMedianCol_eq_cases t col with h | ⟨m, -, h⟩ <;> rw [h]
  · exact hR
  · exact rect_mapCol hR ..

theorem getCells_fillMedianCol_ne {t : Table} {col n2 : String} (hne : n2 ≠ col) :
    getCells (fillMedianCol t col) n2 = getCells t n2 := by
  rcases fillMedianCol_eq_cases t col with h | ⟨m, -, h⟩ <;> rw [h]
  exact getCells_mapCol_ne hne

theorem dtypeAt_fillMedianCol_ne {t : Table} {col n2 : String} (hne : n2 ≠ col) :
    (fillMedianCol t col).dtypeAt n2 = t.dtypeAt n2 := by
  rcases fillMedianCol_eq_cases t col with h | ⟨m, -, h⟩ <;> rw [h]
  exact dtypeAt_mapCol_ne hne

theorem getCells_fillMedianCol_self {t : Table} {col : String} (hR : Rect t)
    (hHas : t.hasCol col = true) (hDt : isNumericDt (t.dtypeAt col) = true) :
    getCells (fillMedianCol t col) col
      = match pdMedian (cellNums (getCells t col)) with
        | some m => (getCells t col).map (fillCellWith (.num m))
        | none => getCells t col := by
  obtain ⟨j, hj⟩ := hasCol_iff.mp hHas
  unfold fillMedianCol
  rw [if_pos ⟨hHas, hDt⟩]
  cases hm : pdMedian (cellNums (getCells t col)) with
  | none => rfl
  | some m => exact getCells_mapCol_self hR hj

/- ## Fold versions of the fill lemmas -/

theorem foldl_fillUnknown_names (L : List String) (t : Table) :
    (L.foldl fillUnknownCol t).names = t.names := by
  induction L generalizing t with
  | nil => rfl
  | cons a L ih => rw [List.foldl_cons, ih, fillUnknownCol_names]

theorem foldl_fillUnknown_index (L : List String) (t : Table) :
    (L.foldl fillUnknownCol t).index = t.index := by
  induction L generalizing t with
  | nil => rfl
  | cons a L ih => rw [List.foldl_cons, ih, fillUnknownCol_index]

theorem foldl_fillUnknown_nRows (L : List String) (t : Table) :
    (L.foldl fillUnknownCol t).nRows = t.nRows := by
  induction L generalizing t with
  | nil => rfl
  | cons a L ih => rw [List.foldl_cons, ih, fillUnknownCol_nRows]

theorem rect_foldl_fillUnknown (L : List String) {t : Table} (hR : Rect t) :
    Rect (L.foldl fillUnknownCol t) := by
  induction L generalizing t with
  | nil => exact hR
  | cons a L ih => exact ih (rect_fillUnknownCol hR a)

theorem foldl_fillUnknown_getCells_ne {L : List String} {t : Table} {n2 : String}
    (hL : n2 ∉ L) : getCells (L.foldl fillUnknownCol t) n2 = getCells t n2 := by
  induction L generalizing t with
  | nil => rfl
  | cons a L ih =>
    rw [List.foldl_cons, ih (fun h => hL (List.mem_cons_of_mem a h)),
      getCells_fillUnknownCol_ne (fun e => hL (by rw [e]; exact List.mem_cons_self a L))]

theorem foldl_fillUnknown_dtypeAt_ne {L : List String} {t : Table} {n2 : String}
    (hL : n2 ∉ L) : (L.foldl fillUnknownCol t).dtypeAt n2 = t.dtypeAt n2 := by
  induction L generalizing t with
  | nil => rfl
  | cons a L ih =>
    rw [List.foldl_cons, ih (fun h => hL (List.mem_cons_of_mem a h)),
      dtypeAt_fillUnknownCol_ne (fun e => hL (by rw [e]; exact List.mem_cons_self a L))]

theorem foldl_fillUnknown_getCells_mem {L : List String} {t : Table} {col : String}
    (hN : L.Nodup) (hcol : col ∈ L) (hR : Rect t) (hHas : t.hasCol col = true) :
    getCells (L.foldl fillUnknownCol t) col
      = (getCells t col).map (fillCellWith (.str "Unknown")) := by
  induction L generalizing t with
  | nil => cases hcol
  | cons a L ih =>
    rw [List.foldl_cons]
    by_cases hac : col = a
    · subst hac
      have hnotin : col ∉ L := (List.nodup_cons.mp hN).1
      rw [foldl_fillUnknown_getCells_ne hnotin]
      exact getCells_fillUnknownCol_self hR hHas
    · have hmem : col ∈ L := (List.mem_cons.mp hcol).resolve_left hac
      rw [ih (List.Nodup.of_cons hN) hmem (rect_fillUnknownCol hR a)
        (by rw [show (fillUnknownCol t a).hasCol col = t.hasCol col from by
              unfold Table.hasCol; rw [fillUnknownCol_names]]; exact hHas),
        getCells_fillUnknownCol_ne hac]

theorem foldl_fillMedian_names (L : List String) (t : Table) :
    (L.foldl fillMedianCol t).names = t.names := by
  induction L generalizing t with
  | nil => rfl
  | cons a L ih => rw [List.foldl_cons, ih, fillMedianCol_names]

theorem foldl_fillMedian_index (L : List String) (t : Table) :
    (L.foldl fillMedianCol t).index = t.index := by
  induction L generalizing t with
  | nil => rfl
  | cons a L ih => rw [List.foldl_cons, ih, fillMedianCol_index]

theorem foldl_fillMedian_nRows (L : List String) (t : Table) :
    (L.foldl fillMedianCol t).nRows = t.nRows := by
  induction L generalizing t with
  | nil => rfl
  | cons a L ih => rw [List.foldl_cons, ih, fillMedianCol_nRows]

theorem rect_foldl_fillMedian (L : List String) {t : Table} (hR : Rect t) :
    Rect (L.foldl fillMedianCol t) := by
  induction L generalizing t with
  | nil => exact hR
  | cons a L ih => exact ih (rect_fillMedianCol hR a)

theorem foldl_fillMedian_getCells_ne {L : List String} {t : Table} {n2 : String}
    (hL : n2 ∉ L) : getCells (L.foldl fillMedianCol t) n2 = getCells t n2 := by
  induction L generalizing t with
  | nil => rfl
  | cons a L ih =>
    rw [List.foldl_cons, ih (fun h => hL (List.mem_cons_of_mem a h)),
      getCells_fillMedianCol_ne (fun e => hL (by rw [e]; exact List.mem_cons_self a L))]

theorem foldl_fillMedian_dtypeAt_ne {L : List String} {t : Table} {n2 : String}
    (hL : n2 ∉ L) : (L.foldl fillMedianCol t).dtypeAt n2 = t.dtypeAt n2 := by
  induction L generalizing t with
  | nil => rfl
  | cons a L ih =>
    rw [List.foldl_cons, ih (fun h => hL (List.mem_cons_of_mem a h)),
      dtypeAt_fillMedianCol_ne (fun e => hL (by rw [e]; exact List.mem_cons_self a L))]

theorem foldl_fillMedian_getCells_mem {L : List String} {t : Table} {col : String}
    (hN : L.Nodup) (hcol : col ∈ L) (hR : Rect t) (hHas : t.hasCol col = true)
    (hDt : isNumericDt (t.dtypeAt col) = true) :
    getCells (L.foldl fillMedianCol t) col
      = match pdMedian (cellNums (getCells t col)) with
        | some m => (getCells t col).map (fillCellWith (.num m))
        | none => getCells t col := by
  induction L generalizing t with
  | nil => cases hcol
  | cons a L ih =>
    rw [List.foldl_cons]
    by_cases hac : col = a
    · subst hac
      have hnotin : col ∉ L := (List.nodup_cons.mp hN).1
      rw [foldl_fillMedian_getCells_ne hnotin]
      exact getCells_fillMedianCol_self hR hHas hDt
    · have hmem : col ∈ L := (List.mem_cons.mp hcol).resolve_left hac
      have hR2 := rect_fillMedianCol hR a
      have hH2 : (fillMedianCol t a).hasCol col = true := by
        unfold Table.hasCol
        rw [fillMedianCol_names]
        exact hHas
      have hD2 : isNumericDt ((fillMedianCol t a).dtypeAt col) = true := by
        rw [dtypeAt_fillMedianCol_ne hac]
        exact hDt
      rw [ih (List.Nodup.of_cons hN) hmem hR2 hH2 hD2, getCells_fillMedianCol_ne hac]

/- ## Stage-level well-formedness -/

theorem rect_colApply {t : Table} (hR : Rect t) (n : String) (d : Dtype) (f : Cell → Cell) :
    Rect (colApply n d f t) := by
  rw [colApply_eq_mapCol]
  exact rect_mapCol hR ..

theorem clean_column_names_parts (t : Table) :
    (clean_column_names t).names = (t.names.map normName).map renameRule
    ∧ (clean_column_names t).dtypes = t.dtypes
    ∧ (clean_column_names t).index = t.index
    ∧ (clean_column_names t).rows = t.rows :=
  ⟨rfl, rfl, rfl, rfl⟩

theorem rect_clean_column_names {t : Table} (hR : Rect t) : Rect (clean_column_names t) := by
  constructor
  · show t.dtypes.length = ((t.names.map normName).map renameRule).length
    simpa using hR.1
  · intro r hr
    show r.length = ((t.names.map normName).map renameRule).length
    simpa using hR.2 r hr

theorem rect_clean_and_convert {t : Table} (hR : Rect t) :
    Rect (clean_and_convert_numerical t) := by
  unfold clean_and_convert_numerical
  exact rect_colApply (rect_colApply hR ..) ..

theorem rect_handle_missing {t : Table} (hR : Rect t) : Rect (handle_missing_values t) := by
  unfold handle_missing_values
  have hR2 : Rect (numerical_cols.foldl fillMedianCol (categorical_cols.foldl fillUnknownCol t)) :=
    rect_foldl_fillMedian _ (rect_foldl_fillUnknown _ hR)
  by_cases h : (numerical_cols.foldl fillMedianCol
      (categorical_cols.foldl fillUnknownCol t)).hasCol "number_of_open_complaints" = true
  · simp only [if_pos h]
    apply rect_setCol hR2
    rw [List.length_map]
    exact getCells_length h
  · simp only [if_neg h]
    exact hR2

/- ## Claim C6: the complaints_missing flag column -/

/-- C6 (confirmed): when the number_of_open_complaints column exists after
numeric cleaning, the missing-value stage adds a boolean column
complaints_missing which is true at a row exactly when that row's
number_of_open_complaints cell is missing after numeric cleaning; the
complaints cells themselves are not imputed by the stage; and when the column
does not exist, complaints_missing is not added (the column-name list is
unchanged). -/
theorem complaints_missing_flag (u : Table) (hR : Rect u) :
    ((clean_and_convert_numerical u).hasCol "number_of_open_complaints" = true →
      getCells (handle_missing_values (clean_and_convert_numerical u)) "complaints_missing"
        = (getCells (clean_and_convert_numerical u) "number_of_open_complaints").map
            (fun c => .bool (isMissingB c))
      ∧ getCells (handle_missing_values (clean_and_convert_numerical u))
            "number_of_open_complaints"
          = getCells (clean_and_convert_numerical u) "number_of_open_complaints"
      ∧ (handle_missing_values (clean_and_convert_numerical u)).hasCol "complaints_missing"
          = true
      ∧ (handle_missing_values (clean_and_convert_numerical u)).dtypeAt "complaints_missing"
          = .boolDt)
    ∧ (¬ (clean_and_convert_numerical u).hasCol "number_of_open_complaints" = true →
        (handle_missing_values (clean_and_convert_numerical u)).names
          = (clean_and_convert_numerical u).names) := by
  set t := clean_and_convert_numerical u with ht
  have hRt : Rect t := rect_clean_and_convert hR
  set d1 := categorical_cols.foldl fillUnknownCol t with hd1
  set d2 := numerical_cols.foldl fillMedianCol d1 with hd2
  have hnames2 : d2.names = t.names := by
    rw [hd2, foldl_fillMedian_names, hd1, foldl_fillUnknown_names]
  have hR2 : Rect d2 := rect_foldl_fillMedian _ (rect_foldl_fillUnknown _ hRt)
  have hcget : getCells d2 "number_of_open_complaints"
      = getCells t "number_of_open_complaints" := by
    rw [hd2, foldl_fillMedian_getCells_ne (by decide), hd1,
      foldl_fillUnknown_getCells_ne (by decide)]
  constructor
  · intro hHas
    have hHas2 : d2.hasCol "number_of_open_complaints" = true := by
      unfold Table.hasCol
      rw [hnames2]
      exact hHas
    have hunf : handle_missing_values t = setCol d2 "complaints_missing" .boolDt
        ((getCells d2 "number_of_open_complaints").map (fun c => .bool (isMissingB c))) := by
      unfold handle_missing_values
      rw [← hd1]
      dsimp only
      rw [← hd2, if_pos hHas2]
    have hcs : ((getCells d2 "number_of_open_complaints").map
        (fun c => Cell.bool (isMissingB c))).length = d2.nRows := by
      rw [List.length_map]
      exact getCells_length hHas2
    refine ⟨?_, ?_, ?_, ?_⟩
    · rw [hunf, getCells_setCol_self _ _ hR2 hcs, hcget]
    · rw [hunf, getCells_setCol_ne _ _ hR2 hcs (by decide), hcget]
    · rw [hunf]
      exact hasCol_setCol_self ..
    · rw [hunf]
      exact dtypeAt_setCol_self _ _ hR2
  · intro hHas
    have hHas2 : ¬ d2.hasCol "number_of_open_complaints" = true := by
      unfold Table.hasCol
      rw [hnames2]
      exact hHas
    have hunf : handle_missing_values t = d2 := by
      unfold handle_missing_values
      rw [← hd1]
      dsimp only
      rw [← hd2, if_neg hHas2]
    rw [hunf, hnames2]

/-- C6 witness: a concrete table with one present and one missing complaints
value after cleaning. -/
theorem complaints_missing_flag_witness :
    getCells
      (handle_missing_values
        (clean_and_convert_numerical
          { names := ["number_of_open_complaints"], dtypes := [.obj], index := [0, 1]
          , rows := [[.str "1/3/00"], [.str "none"]] }))
      "complaints_missing"
      = [Cell.bool false, Cell.bool true] := by
  have h := (complaints_missing_flag
    { names := ["number_of_open_complaints"], dtypes := [.obj], index := [0, 1]
    , rows := [[.str "1/3/00"], [.str "none"]] } (by decide)).1 (by decide)
  rw [h.1]
  decide

/- ## Claim C4: median imputation for the fixed numeric columns -/

theorem hasCol_congr {t s : Table} (h : t.names = s.names) (n : String) :
    t.hasCol n = s.hasCol n := by
  unfold Table.hasCol
  rw [h]

/-- C4 counterexample: the claim states that any of the four columns that is
present has its missing cells replaced by the column median; a present
customer_income column of object dtype (which the pipeline never converts)
keeps its missing cell, because the stage also requires a numeric dtype. -/
theorem median_imputation_claim_counterexample :
    getCells
      (handle_missing_values
        { names := ["customer_income"], dtypes := [.obj], index := [0, 1]
        , rows := [[.num 10], [.missing]] })
      "customer_income" = [Cell.num 10, Cell.missing]
    ∧ Cell.missing ≠ Cell.num 10 := by
  decide

/-- C4 (amended): for each of the columns total_claim_amount,
monthly_premium_auto, customer_income and customer_lifetime_value that is
present with a numeric dtype when the missing-value stage runs, every missing
cell is replaced by that column's median over its non-missing values at that
time (average of the two middle sorted values for even counts), computed
independently per column from the stage's input. -/
theorem median_imputation_amended (t : Table) (hR : Rect t) (col : String)
    (hcol : col ∈ numerical_cols) (hHas : t.hasCol col = true)
    (hDt : isNumericDt (t.dtypeAt col) = true) :
    getCells (handle_missing_values t) col
      = match pdMedian (cellNums (getCells t col)) with
        | some m => (getCells t col).map (fillCellWith (.num m))
        | none => getCells t col := by
  have hnotcat : col ∉ categorical_cols := by fin_cases hcol <;> decide
  have hnodup : numerical_cols.Nodup := by decide
  have hcm : col ≠ "complaints_missing" := by fin_cases hcol <;> decide
  set d1 := categorical_cols.foldl fillUnknownCol t with hd1
  set d2 := numerical_cols.foldl fillMedianCol d1 with hd2
  have hR1 : Rect d1 := rect_foldl_fillUnknown _ hR
  have hR2 : Rect d2 := rect_foldl_fillMedian _ hR1
  have hget1 : getCells d1 col = getCells t col := foldl_fillUnknown_getCells_ne hnotcat
  have hHas1 : d1.hasCol col = true := by
    rw [hasCol_congr (foldl_fillUnknown_names ..) col]
    exact hHas
  have hDt1 : isNumericDt (d1.dtypeAt col) = true := by
    rw [foldl_fillUnknown_dtypeAt_ne hnotcat]
    exact hDt
  have key : getCells d2 col
      = match pdMedian (cellNums (getCells t col)) with
        | some m => (getCells t col).map (fillCellWith (.num m))
        | none => getCells t col := by
    rw [hd2, foldl_fillMedian_getCells_mem hnodup hcol hR1 hHas1 hDt1, hget1]
  have hfinal : getCells (handle_missing_values t) col = getCells d2 col := by
    by_cases hc : d2.hasCol "number_of_open_complaints" = true
    · have hunf : handle_missing_values t = setCol d2 "complaints_missing" .boolDt
          ((getCells d2 "number_of_open_complaints").map (fun c => .bool (isMissingB c))) := by
        unfold handle_missing_values
        rw [← hd1]
        dsimp only
        rw [← hd2, if_pos hc]
      have hcs : ((getCells d2 "number_of_open_complaints").map
          (fun c => Cell.bool (isMissingB c))).length = d2.nRows := by
        rw [List.length_map]
        exact getCells_length hc
      rw [hunf, getCells_setCol_ne _ _ hR2 hcs hcm]
    · have hunf : handle_missing_values t = d2 := by
        unfold handle_missing_values
        rw [← hd1]
        dsimp only
        rw [← hd2, if_neg hc]
      rw [hunf]
  rw [hfinal, key]

/-- C4 witness: the spec's own example, values 10, 20, missing, 40 in a
numeric customer_income column; the missing cell becomes 20. -/
theorem median_imputation_amended_witness :
    getCells
      (handle_missing_values
        { names := ["customer_income"], dtypes := [.float64], index := [0, 1, 2, 3]
        , rows := [[.num 10], [.num 20], [.missing], [.num 40]] })
      "customer_income" = [Cell.num 10, Cell.num 20, Cell.num 20, Cell.num 40] := by
  have h := median_imputation_amended
    { names := ["customer_income"], dtypes := [.float64], index := [0, 1, 2, 3]
    , rows := [[.num 10], [.num 20], [.missing], [.num 40]] }
    (by decide) "customer_income" (by decide) (by decide) (by decide)
  rw [h]
  decide

/- ## Claim C7: duplicate removal -/

/-- row i equals some earlier row of the list. -/
def earlierDupB (rows : List (List Cell)) (i : Nat) : Bool :=
  (List.range i).any (fun j => decide (rows.getD j [] = rows.getD i []))

/-- which positions survive keepFirstsAux for a given seen set. -/
def keepB (seen rows : List (List Cell)) (i : Nat) : Bool :=
  !(decide (rows.getD i [] ∈ seen)) && !(earlierDupB rows i)

theorem keepB_succ (s2 : List (List Cell)) (r : List Cell) (rs : List (List Cell)) (i : Nat) :
    keepB s2 (r :: rs) (i + 1) = (!(decide (rs.getD i [] = r)) && keepB s2 rs i) := by
  have hbool : ∀ a b c : Bool, (!a && !(b || c)) = (!b && (!a && !c)) := by decide
  unfold keepB earlierDupB
  rw [List.range_succ_eq_map]
  simp only [List.any_cons, List.any_map, Function.comp_def, List.getD_cons_succ,
    List.getD_cons_zero]
  have hco : decide (r = rs.getD i []) = decide (rs.getD i [] = r) := by
    simp [eq_comm]
  rw [hco, hbool]

theorem keepFirstsAux_eq_filter (seen l : List (List Cell)) :
    keepFirstsAux seen l
      = ((List.range l.length).filter (keepB seen l)).map (fun i => l.getD i []) := by
  induction l generalizing seen with
  | nil => rfl
  | cons r rs ih =>
    have hzero : keepB seen (r :: rs) 0 = !(decide (r ∈ seen)) := by
      unfold keepB earlierDupB
      simp
    have hfun : ((fun i => (r :: rs).getD i []) ∘ Nat.succ) = fun i => rs.getD i [] := by
      funext i
      simp
    unfold keepFirstsAux
    rw [show (r :: rs).length = rs.length + 1 from rfl, List.range_succ_eq_map]
    by_cases hseen : r ∈ seen
    · rw [if_pos hseen, List.filter_cons_of_neg (by rw [hzero]; simp [hseen]),
        List.filter_map, List.map_map]
      have hpred : List.filter (keepB seen (r :: rs) ∘ Nat.succ) (List.range rs.length)
          = List.filter (keepB seen rs) (List.range rs.length) := by
        apply List.filter_congr
        intro i hi
        show keepB seen (r :: rs) (i + 1) = keepB seen rs i
        rw [keepB_succ]
        by_cases hx : rs.getD i [] = r
        · have hk : keepB seen rs i = false := by
            unfold keepB
            rw [hx]
            simp [hseen]
          rw [hk, Bool.and_false]
        · rw [decide_eq_false hx]
          simp
      rw [hfun, hpred, ih seen]
    · rw [if_neg hseen, List.filter_cons_of_pos (by rw [hzero]; simp [hseen]),
        List.map_cons, List.filter_map, List.map_map]
      have hpred : List.filter (keepB seen (r :: rs) ∘ Nat.succ) (List.range rs.length)
          = List.filter (keepB (r :: seen) rs) (List.range rs.length) := by
        apply List.filter_congr
        intro i hi
        show keepB seen (r :: rs) (i + 1) = keepB (r :: seen) rs i
        rw [keepB_succ]
        unfold keepB
        have hmem : decide (rs.getD i [] ∈ r :: seen)
            = (decide (rs.getD i [] = r) || decide (rs.getD i [] ∈ seen)) := by
          simp [List.mem_cons]
        rw [hmem]
        cases hA : decide (rs.getD i [] = r) <;> cases hB : decide (rs.getD i [] ∈ seen) <;>
          cases hC : earlierDupB rs i <;> rfl
      rw [hfun, hpred, ih (r :: seen)]
      simp

theorem length_filter_add_length_filter_not (l : List Nat) (p : Nat → Bool) :
    (l.filter p).length + (l.filter (fun i => !p i)).length = l.length := by
  induction l with
  | nil => rfl
  | cons a l ih =>
    cases h : p a <;> simp only [List.filter_cons, h] <;> simp <;> omega

/-- C7 (confirmed): the duplicate remover deletes exactly the rows equal
cell-for-cell to some earlier row, keeps the first occurrence of each distinct
row in their relative order, renumbers the index contiguously from zero, and
the printed notice reports the number of deleted rows. -/
theorem remove_duplicates_spec (t : Table) :
    (remove_duplicates t).1.rows
      = ((List.range t.nRows).filter (fun i => !earlierDupB t.rows i)).map
          (fun i => t.rows.getD i [])
    ∧ (remove_duplicates t).1.rows.Sublist t.rows
    ∧ (remove_duplicates t).2
        = ((List.range t.nRows).filter (fun i => earlierDupB t.rows i)).length
    ∧ (remove_duplicates t).1.index = List.range (remove_duplicates t).1.rows.length
    ∧ dupNoticeLine (remove_duplicates t).2
        = "Number of duplicate rows removed: "
            ++ natToStr ((List.range t.nRows).filter (fun i => earlierDupB t.rows i)).length
    ∧ (remove_duplicates t).1.names = t.names := by
  have hkeepB : ∀ i, keepB [] t.rows i = !earlierDupB t.rows i := by
    intro i
    unfold keepB
    simp
  have hchar : (remove_duplicates t).1.rows
      = ((List.range t.nRows).filter (fun i => !earlierDupB t.rows i)).map
          (fun i => t.rows.getD i []) := by
    show keepFirsts t.rows = _
    unfold keepFirsts
    rw [keepFirstsAux_eq_filter]
    congr 1

  have hcount : (remove_duplicates t).2
      = ((List.range t.nRows).filter (fun i => earlierDupB t.rows i)).length := by
    show t.rows.length - (keepFirsts t.rows).length = _
    have hlen : (keepFirsts t.rows).length
        = ((List.range t.nRows).filter (fun i => !earlierDupB t.rows i)).length := by
      have h2 : (remove_duplicates t).1.rows = keepFirsts t.rows := rfl
      rw [h2] at hchar
      rw [hchar, List.length_map]
    have hpart := length_filter_add_length_filter_not (List.range t.nRows)
      (fun i => earlierDupB t.rows i)
    rw [List.length_range] at hpart
    rw [hlen]
    show t.nRows - _ = _
    omega
  refine ⟨hchar, keepFirsts_sublist t.rows, hcount, rfl, by rw [hcount]; rfl, rfl⟩

/- ## Stage-level column-name facts -/

theorem colApply_names (n : String) (d : Dtype) (f : Cell → Cell) (t : Table) :
    (colApply n d f t).names = t.names := by
  rw [colApply_eq_mapCol, mapCol_names]

theorem standardize_gender_names (t : Table) : (standardize_gender t).names = t.names :=
  colApply_names ..

theorem standardize_state_names (t : Table) : (standardize_state t).names = t.names :=
  colApply_names ..

theorem standardize_education_names (t : Table) : (standardize_education t).names = t.names :=
  colApply_names ..

theorem standardize_vehicle_class_names (t : Table) :
    (standardize_vehicle_class t).names = t.names :=
  colApply_names ..

theorem clean_and_convert_names (t : Table) : (clean_and_convert_numerical t).names = t.names := by
  unfold clean_and_convert_numerical
  rw [colApply_names, colApply_names]

theorem handle_missing_names (t : Table) :
    (handle_missing_values t).names = t.names
    ∨ (handle_missing_values t).names = t.names ++ ["complaints_missing"] := by
  unfold handle_missing_values
  set d1 := categorical_cols.foldl fillUnknownCol t with hd1
  set d2 := numerical_cols.foldl fillMedianCol d1 with hd2
  have hnames2 : d2.names = t.names := by
    rw [hd2, foldl_fillMedian_names, hd1, foldl_fillUnknown_names]
  by_cases hc : d2.hasCol "number_of_open_complaints" = true
  · simp only [if_pos hc]
    cases hcm : colIdx d2 "complaints_missing" with
    | some j =>
      left
      rw [setCol_names_of_some _ _ hcm, hnames2]
    | none =>
      right
      rw [setCol_names_of_none _ _ hcm, hnames2]
  · simp only [if_neg hc]
    left
    exact hnames2

theorem remove_duplicates_names (t : Table) : (remove_duplicates t).1.names = t.names := rfl

/-- the two possible shapes of the pipeline's output column-name list. -/
theorem pipeline_names (t : Table) :
    (main_cleaning_pipeline t).1.names = (t.names.map normName).map renameRule
    ∨ (main_cleaning_pipeline t).1.names
        = ((t.names.map normName).map renameRule) ++ ["complaints_missing"] := by
  unfold main_cleaning_pipeline
  rw [remove_duplicates_names]
  have hbase : (clean_and_convert_numerical
      (standardize_vehicle_class (standardize_education (standardize_state
        (standardize_gender (clean_column_names t)))))).names
      = (t.names.map normName).map renameRule := by
    rw [clean_and_convert_names, standardize_vehicle_class_names, standardize_education_names,
      standardize_state_names, standardize_gender_names]
    rfl
  rcases handle_missing_names (clean_and_convert_numerical
      (standardize_vehicle_class (standardize_education (standardize_state
        (standardize_gender (clean_column_names t)))))) with h | h
  · left
    rw [h, hbase]
  · right
    rw [h, hbase]

/- ## Claim C8: the column-name contract -/

/-- a name is lower-case (no ASCII capital) and contains no space. -/
def isLowerNoSpace (s : String) : Bool :=
  s.data.all (fun c => !(decide (65 ≤ c.toNat ∧ c.toNat ≤ 90)) && !(decide (c = ' ')))

theorem charOfNat_toNat_up (m : Nat) (h1 : 97 ≤ m) (h2 : m ≤ 122) :
    (Char.ofNat m).toNat = m := by
  interval_cases m <;> decide

theorem charLow_not_upper (c : Char) :
    ¬(65 ≤ (charLow c).toNat ∧ (charLow c).toNat ≤ 90) := by
  unfold charLow
  by_cases h : 65 ≤ c.toNat ∧ c.toNat ≤ 90
  · rw [if_pos h]
    have he : (Char.ofNat (c.toNat + 32)).toNat = c.toNat + 32 :=
      charOfNat_toNat_up _ (by omega) (by omega)
    rw [he]
    omega
  · rw [if_neg h]
    exact h

theorem isLowerNoSpace_normName (s : String) : isLowerNoSpace (normName s) = true := by
  unfold isLowerNoSpace normName
  rw [List.all_eq_true]
  intro c hc
  have hc2 : c ∈ (s.data.map charLow).map (fun c => if c = ' ' then '_' else c) := hc
  obtain ⟨c0, hc0, rfl⟩ := List.mem_map.mp hc2
  obtain ⟨c1, hc1, rfl⟩ := List.mem_map.mp hc0
  by_cases hsp : charLow c1 = ' '
  · rw [if_pos hsp]
    decide
  · rw [if_neg hsp]
    have hup := charLow_not_upper c1
    simp [hsp, hup]

theorem isLowerNoSpace_renameRule (s : String) (h : isLowerNoSpace s = true) :
    isLowerNoSpace (renameRule s) = true := by
  unfold renameRule
  by_cases h1 : s = "st"
  · rw [if_pos h1]
    decide
  · rw [if_neg h1]
    by_cases h2 : s = "income"
    · rw [if_pos h2]
      decide
    · rw [if_neg h2]
      exact h

/-- C8 (confirmed): every column name in the pipeline's output is lower-case
with no spaces; an input column whose lower-cased space-to-underscore form is
"st", respectively "income", appears in the output as "state", respectively
"customer_income"; and every other input name passes through the rename
unchanged (position i of the output names is exactly the renamed normalised
input name at position i). -/
theorem column_name_contract (t : Table) :
    (∀ n ∈ (main_cleaning_pipeline t).1.names, isLowerNoSpace n = true)
    ∧ (∀ i, i < t.names.length →
        (main_cleaning_pipeline t).1.names.getD i ""
          = renameRule (normName (t.names.getD i "")))
    ∧ renameRule "st" = "state"
    ∧ renameRule "income" = "customer_income"
    ∧ (∀ s, s ≠ "st" → s ≠ "income" → renameRule s = s) := by
  have hpref : ∀ i, i < t.names.length →
      ((t.names.map normName).map renameRule).getD i ""
        = renameRule (normName (t.names.getD i "")) := by
    intro i hi
    have hi2 : i < ((t.names.map normName).map renameRule).length := by simpa using hi
    rw [List.getD_eq_getElem _ _ hi2, List.getD_eq_getElem _ _ hi]
    simp
  have hlns : ∀ n ∈ (t.names.map normName).map renameRule, isLowerNoSpace n = true := by
    intro n hn
    obtain ⟨n0, hn0, rfl⟩ := List.mem_map.mp hn
    obtain ⟨n1, hn1, rfl⟩ := List.mem_map.mp hn0
    exact isLowerNoSpace_renameRule _ (isLowerNoSpace_normName n1)
  rcases pipeline_names t with h | h
  · refine ⟨?_, ?_, rfl, rfl, ?_⟩
    · intro n hn
      rw [h] at hn
      exact hlns n hn
    · intro i hi
      rw [h]
      exact hpref i hi
    · intro s h1 h2
      unfold renameRule
      rw [if_neg h1, if_neg h2]
  · refine ⟨?_, ?_, rfl, rfl, ?_⟩
    · intro n hn
      rw [h] at hn
      rcases List.mem_append.mp hn with h2 | h2
      · exact hlns n h2
      · simp only [List.mem_singleton] at h2
        subst h2
        decide
    · intro i hi
      rw [h]
      have hi2 : i < ((t.names.map normName).map renameRule).length := by simpa using hi
      rw [List.getD_eq_getElem?_getD, List.getElem?_append_left hi2,
        ← List.getD_eq_getElem?_getD]
      exact hpref i hi
    · intro s h1 h2
      unfold renameRule
      rw [if_neg h1, if_neg h2]

/-- C8 witness: the contract applied to a concrete table with columns
"ST", "Income" and "Customer Name". -/
theorem column_name_contract_witness :
    (main_cleaning_pipeline
      { names := ["ST", "Income", "Customer Name"], dtypes := [.obj, .obj, .obj]
      , index := [0], rows := [[.str "CA", .num 10, .str "x"]] }).1.names.getD 0 ""
      = "state"
    ∧ (main_cleaning_pipeline
      { names := ["ST", "Income", "Customer Name"], dtypes := [.obj, .obj, .obj]
      , index := [0], rows := [[.str "CA", .num 10, .str "x"]] }).1.names.getD 1 ""
      = "customer_income"
    ∧ (main_cleaning_pipeline
      { names := ["ST", "Income", "Customer Name"], dtypes := [.obj, .obj, .obj]
      , index := [0], rows := [[.str "CA", .num 10, .str "x"]] }).1.names.getD 2 ""
      = "customer_name" := by
  have h := (column_name_contract
    { names := ["ST", "Income", "Customer Name"], dtypes := [.obj, .obj, .obj]
    , index := [0], rows := [[.str "CA", .num 10, .str "x"]] }).2.1
  refine ⟨?_, ?_, ?_⟩
  · rw [h 0 (by decide)]
    decide
  · rw [h 1 (by decide)]
    decide
  · rw [h 2 (by decide)]
    decide

/- ## Claim C10: row preservation across stages -/

theorem colApply_nRows (n : String) (d : Dtype) (f : Cell → Cell) (t : Table) :
    (colApply n d f t).nRows = t.nRows := by
  rw [colApply_eq_mapCol, mapCol_nRows]

theorem handle_missing_nRows (t : Table) : (handle_missing_values t).nRows = t.nRows := by
  unfold handle_missing_values
  set d1 := categorical_cols.foldl fillUnknownCol t with hd1
  set d2 := numerical_cols.foldl fillMedianCol d1 with hd2
  have h2 : d2.nRows = t.nRows := by
    rw [hd2, foldl_fillMedian_nRows, hd1, foldl_fillUnknown_nRows]
  by_cases hc : d2.hasCol "number_of_open_complaints" = true
  · simp only [if_pos hc]
    rw [setCol_nRows _ _ _ _ (by rw [List.length_map]; exact getCells_length hc)]
    exact h2
  · simp only [if_neg hc]
    exact h2

theorem main_pipeline_eq (t : Table) :
    main_cleaning_pipeline t
      = remove_duplicates (handle_missing_values (clean_and_convert_numerical
          (standardize_vehicle_class (standardize_education (standardize_state
            (standardize_gender (clean_column_names t))))))) := rfl

theorem remove_duplicates_rows (t : Table) :
    (remove_duplicates t).1.rows = keepFirsts t.rows := rfl

theorem remove_duplicates_count (t : Table) :
    (remove_duplicates t).2 = t.rows.length - (keepFirsts t.rows).length := rfl

theorem remove_duplicates_index (t : Table) :
    (remove_duplicates t).1.index = List.range (keepFirsts t.rows).length := rfl

theorem remove_duplicates_nRows (t : Table) :
    (remove_duplicates t).1.nRows = (keepFirsts t.rows).length := rfl

theorem standardize_gender_nRows (u : Table) : (standardize_gender u).nRows = u.nRows :=
  colApply_nRows ..

theorem standardize_state_nRows (u : Table) : (standardize_state u).nRows = u.nRows :=
  colApply_nRows ..

theorem standardize_education_nRows (u : Table) : (standardize_education u).nRows = u.nRows :=
  colApply_nRows ..

theorem standardize_vehicle_class_nRows (u : Table) :
    (standardize_vehicle_class u).nRows = u.nRows :=
  colApply_nRows ..

theorem clean_and_convert_nRows (u : Table) :
    (clean_and_convert_numerical u).nRows = u.nRows := by
  unfold clean_and_convert_numerical
  rw [colApply_nRows, colApply_nRows]

/-- C10 (confirmed): every stage except the duplicate remover preserves the
number of rows (the stages rewrite cells in place, row by row); only the final
remove_duplicates stage deletes rows, its survivors keep their relative order
(they form a sublist of the rows it receives), and the output row count plus
the reported duplicate count equals the input row count. -/
theorem row_preservation (t : Table) :
    (∀ u : Table, (clean_column_names u).nRows = u.nRows)
    ∧ (∀ u : Table, (standardize_gender u).nRows = u.nRows)
    ∧ (∀ u : Table, (standardize_state u).nRows = u.nRows)
    ∧ (∀ u : Table, (standardize_education u).nRows = u.nRows)
    ∧ (∀ u : Table, (standardize_vehicle_class u).nRows = u.nRows)
    ∧ (∀ u : Table, (clean_and_convert_numerical u).nRows = u.nRows)
    ∧ (∀ u : Table, (handle_missing_values u).nRows = u.nRows)
    ∧ (main_cleaning_pipeline t).1.nRows + (main_cleaning_pipeline t).2 = t.nRows
    ∧ (main_cleaning_pipeline t).1.rows.Sublist
        (handle_missing_values (clean_and_convert_numerical (standardize_vehicle_class
          (standardize_education (standardize_state (standardize_gender
            (clean_column_names t))))))).rows := by
  set d7 := handle_missing_values (clean_and_convert_numerical (standardize_vehicle_class
    (standardize_education (standardize_state (standardize_gender
      (clean_column_names t)))))) with hd7
  have hmp : main_cleaning_pipeline t = remove_duplicates d7 := by
    rw [hd7]
    exact main_pipeline_eq t
  have hlen : d7.nRows = t.nRows := by
    rw [hd7, handle_missing_nRows, clean_and_convert_nRows, standardize_vehicle_class_nRows,
      standardize_education_nRows, standardize_state_nRows, standardize_gender_nRows]
    rfl
  have hlen2 : d7.rows.length = t.nRows := hlen
  have hle : (keepFirsts d7.rows).length ≤ d7.rows.length := keepFirsts_length_le _
  refine ⟨fun u => rfl, standardize_gender_nRows, standardize_state_nRows,
    standardize_education_nRows, standardize_vehicle_class_nRows, clean_and_convert_nRows,
    handle_missing_nRows, ?_, ?_⟩
  · rw [hmp, remove_duplicates_count, remove_duplicates_nRows]
    omega
  · rw [hmp, remove_duplicates_rows]
    exact keepFirsts_sublist _

/- ## Per-stage cell access helpers -/

/-- the cell at row r of column n. -/
def cellAt (t : Table) (n : String) (r : Nat) : Cell := (getCells t n).getD r .missing

theorem getD_map_cells {f : Cell → Cell} {cs : List Cell} {r : Nat} (hr : r < cs.length) :
    (cs.map f).getD r .missing = f (cs.getD r .missing) := by
  rw [List.getD_eq_getElem _ _ (by simpa using hr), List.getD_eq_getElem _ _ hr,
    List.getElem_map]

theorem cellAt_eq_row_getD {t : Table} {n : String} {j : Nat} (h : colIdx t n = some j)
    {r : Nat} (hr : r < t.nRows) :
    cellAt t n r = (t.rows.getD r []).getD j .missing := by
  unfold cellAt getCells
  rw [h]
  have hr2 : r < (t.rows.map (fun row => row.getD j .missing)).length := by
    simpa using hr
  rw [List.getD_eq_getElem _ _ hr2, List.getElem_map, List.getD_eq_getElem _ _ hr]

theorem getD_row_mem {t : Table} {r : Nat} (hr : r < t.nRows) :
    t.rows.getD r [] ∈ t.rows := by
  rw [List.getD_eq_getElem _ _ hr]
  exact List.getElem_mem ..

theorem getCells_colApply_self {t : Table} {n : String} {j : Nat} {d : Dtype} {f : Cell → Cell}
    (hR : Rect t) (h : colIdx t n = some j) :
    getCells (colApply n d f t) n = (getCells t n).map f := by
  rw [colApply_eq_mapCol]
  exact getCells_mapCol_self hR h

theorem getCells_colApply_ne {t : Table} {n n2 : String} {d : Dtype} {f : Cell → Cell}
    (hne : n2 ≠ n) : getCells (colApply n d f t) n2 = getCells t n2 := by
  rw [colApply_eq_mapCol]
  exact getCells_mapCol_ne hne

theorem getCells_clean_and_convert_ne {t : Table} {n2 : String}
    (h1 : n2 ≠ "customer_lifetime_value") (h2 : n2 ≠ "number_of_open_complaints") :
    getCells (clean_and_convert_numerical t) n2 = getCells t n2 := by
  unfold clean_and_convert_numerical
  rw [getCells_colApply_ne h2, getCells_colApply_ne h1]

theorem colIdx_colApply (n : String) (d : Dtype) (f : Cell → Cell) (t : Table) (n2 : String) :
    colIdx (colApply n d f t) n2 = colIdx t n2 := by
  rw [colApply_eq_mapCol, colIdx_mapCol]

/-- cells of a categorical column (not numerical, not the flag column) after
the missing-value stage: every missing cell replaced by "Unknown". -/
theorem getCells_handle_missing_cat {v : Table} (hRv : Rect v) {col : String}
    (hcat : col ∈ categorical_cols) (hnum : col ∉ numerical_cols)
    (hcm : col ≠ "complaints_missing") (hHas : v.hasCol col = true) :
    getCells (handle_missing_values v) col
      = (getCells v col).map (fillCellWith (.str "Unknown")) := by
  unfold handle_missing_values
  set d1 := categorical_cols.foldl fillUnknownCol v with hd1
  set d2 := numerical_cols.foldl fillMedianCol d1 with hd2
  have hR2 : Rect d2 := rect_foldl_fillMedian _ (rect_foldl_fillUnknown _ hRv)
  have h1 : getCells d1 col = (getCells v col).map (fillCellWith (.str "Unknown")) := by
    rw [hd1]
    exact foldl_fillUnknown_getCells_mem (by decide) hcat hRv hHas
  have h2 : getCells d2 col = getCells d1 col := by
    rw [hd2]
    exact foldl_fillMedian_getCells_ne hnum
  by_cases hc : d2.hasCol "number_of_open_complaints" = true
  · simp only [if_pos hc]
    rw [getCells_setCol_ne _ _ hR2
      (by rw [List.length_map]; exact getCells_length hc) hcm, h2, h1]
  · simp only [if_neg hc]
    rw [h2, h1]

theorem colIdx_handle_missing {v : Table} {col : String} {j : Nat}
    (h : colIdx v col = some j) : colIdx (handle_missing_values v) col = some j := by
  rcases handle_missing_names v with hn | hn
  · unfold colIdx at *
    rw [hn]
    exact h
  · unfold colIdx at *
    rw [hn, List.findIdx?_append, h]
    rfl

theorem rect_standardize_gender {t : Table} (hR : Rect t) : Rect (standardize_gender t) :=
  rect_colApply hR ..

theorem rect_standardize_state {t : Table} (hR : Rect t) : Rect (standardize_state t) :=
  rect_colApply hR ..

theorem rect_standardize_education {t : Table} (hR : Rect t) :
    Rect (standardize_education t) :=
  rect_colApply hR ..

theorem rect_standardize_vehicle_class {t : Table} (hR : Rect t) :
    Rect (standardize_vehicle_class t) :=
  rect_colApply hR ..

theorem getCells_standardize_gender_ne {u : Table} {n2 : String} (h : n2 ≠ "gender") :
    getCells (standardize_gender u) n2 = getCells u n2 := getCells_colApply_ne h

theorem getCells_standardize_state_ne {u : Table} {n2 : String} (h : n2 ≠ "state") :
    getCells (standardize_state u) n2 = getCells u n2 := getCells_colApply_ne h

theorem getCells_standardize_education_ne {u : Table} {n2 : String} (h : n2 ≠ "education") :
    getCells (standardize_education u) n2 = getCells u n2 := getCells_colApply_ne h

theorem getCells_standardize_vehicle_class_ne {u : Table} {n2 : String}
    (h : n2 ≠ "vehicle_class") :
    getCells (standardize_vehicle_class u) n2 = getCells u n2 := getCells_colApply_ne h

theorem getCells_standardize_gender_self {u : Table} {j : Nat} (hR : Rect u)
    (h : colIdx u "gender" = some j) :
    getCells (standardize_gender u) "gender" = (getCells u "gender").map genderCell :=
  getCells_colApply_self hR h

theorem getCells_standardize_state_self {u : Table} {j : Nat} (hR : Rect u)
    (h : colIdx u "state" = some j) :
    getCells (standardize_state u) "state" = (getCells u "state").map stateCell :=
  getCells_colApply_self hR h

theorem getCells_standardize_education_self {u : Table} {j : Nat} (hR : Rect u)
    (h : colIdx u "education" = some j) :
    getCells (standardize_education u) "education"
      = (getCells u "education").map eduCell :=
  getCells_colApply_self hR h

theorem getCells_standardize_vehicle_class_self {u : Table} {j : Nat} (hR : Rect u)
    (h : colIdx u "vehicle_class" = some j) :
    getCells (standardize_vehicle_class u) "vehicle_class"
      = (getCells u "vehicle_class").map vehCell :=
  getCells_colApply_self hR h

/-- common part of the C9 argument: a categorical column whose five-stage
transform is known pointwise ends the pre-deduplication pipeline with the
fill-adjusted value, and its row survives into the final output. -/
theorem missing_cat_pipeline_cell (t : Table) (hR : Rect t) (col canon : String)
    (F : Cell → Cell) (r : Nat) (hr : r < t.nRows)
    (hHas : (clean_column_names t).hasCol col = true)
    (hcat : col ∈ categorical_cols) (hnum : col ∉ numerical_cols)
    (hcm : col ≠ "complaints_missing")
    (hchain : getCells (clean_and_convert_numerical (standardize_vehicle_class
        (standardize_education (standardize_state (standardize_gender
          (clean_column_names t)))))) col
        = (getCells (clean_column_names t) col).map F)
    (hm : cellAt (clean_column_names t) col r = .missing)
    (hF : fillCellWith (.str "Unknown") (F .missing) = .str canon) :
    ∃ j, colIdx (handle_missing_values (clean_and_convert_numerical
        (standardize_vehicle_class (standardize_education (standardize_state
          (standardize_gender (clean_column_names t))))))) col = some j
      ∧ ((handle_missing_values (clean_and_convert_numerical
          (standardize_vehicle_class (standardize_education (standardize_state
            (standardize_gender (clean_column_names t))))))).rows.getD r []).getD j
            .missing = .str canon
      ∧ (handle_missing_values (clean_and_convert_numerical
          (standardize_vehicle_class (standardize_education (standardize_state
            (standardize_gender (clean_column_names t))))))).rows.getD r []
          ∈ (main_cleaning_pipeline t).1.rows := by
  set u0 := clean_column_names t with hu0
  set u5 := clean_and_convert_numerical (standardize_vehicle_class
    (standardize_education (standardize_state (standardize_gender u0)))) with hu5
  set PRE := handle_missing_values u5 with hPRE
  obtain ⟨j0, hj0⟩ := hasCol_iff.mp hHas
  have hR0 : Rect u0 := rect_clean_column_names hR
  have hR5 : Rect u5 := by
    rw [hu5]
    exact rect_clean_and_convert (rect_standardize_vehicle_class (rect_standardize_education
      (rect_standardize_state (rect_standardize_gender hR0))))
  have hnames5 : u5.names = u0.names := by
    rw [hu5, clean_and_convert_names, standardize_vehicle_class_names,
      standardize_education_names, standardize_state_names, standardize_gender_names]
  have hHas5 : u5.hasCol col = true := by
    rw [hasCol_congr hnames5]
    exact hHas
  have hj5 : colIdx u5 col = some j0 := by
    unfold colIdx
    rw [hnames5]
    exact hj0
  have hjP : colIdx PRE col = some j0 := by
    rw [hPRE]
    exact colIdx_handle_missing hj5
  have hn0 : u0.nRows = t.nRows := rfl
  have hn5 : u5.nRows = t.nRows := by
    rw [hu5, clean_and_convert_nRows, standardize_vehicle_class_nRows,
      standardize_education_nRows, standardize_state_nRows, standardize_gender_nRows, hn0]
  have hnP : PRE.nRows = t.nRows := by
    rw [hPRE, handle_missing_nRows, hn5]
  have hrP : r < PRE.nRows := by
    rw [hnP]
    exact hr
  have hPRE_cells : getCells PRE col = (getCells u5 col).map (fillCellWith (.str "Unknown")) := by
    rw [hPRE]
    exact getCells_handle_missing_cat hR5 hcat hnum hcm hHas5
  have hr0 : r < (getCells u0 col).length := by
    rw [getCells_length hHas, hn0]
    exact hr
  have hval : cellAt PRE col r = Cell.str canon := by
    unfold cellAt
    rw [hPRE_cells, hchain, getD_map_cells (by simpa using hr0), getD_map_cells hr0]
    have hm2 : (getCells u0 col).getD r .missing = Cell.missing := hm
    rw [hm2]
    exact hF
  have hmp : main_cleaning_pipeline t = remove_duplicates PRE := by
    rw [hPRE, hu5, hu0]
    exact main_pipeline_eq t
  refine ⟨j0, hjP, ?_, ?_⟩
  · rw [← cellAt_eq_row_getD hjP hrP]
    exact hval
  · rw [hmp, remove_duplicates_rows]
    exact mem_keepFirsts.mpr (getD_row_mem hrP)

theorem colIdx_standardize_gender (u : Table) (n2 : String) :
    colIdx (standardize_gender u) n2 = colIdx u n2 := colIdx_colApply ..

theorem colIdx_standardize_state (u : Table) (n2 : String) :
    colIdx (standardize_state u) n2 = colIdx u n2 := colIdx_colApply ..

theorem colIdx_standardize_education (u : Table) (n2 : String) :
    colIdx (standardize_education u) n2 = colIdx u n2 := colIdx_colApply ..

/- ## Claim C9: missing categorical cells become "nan", never "Unknown" -/

/-- C9 (confirmed): a row whose gender, state, education or vehicle_class cell
is missing after column-name cleaning reaches the end of the pipeline with the
literal string "nan" (for state: "NAN") in that cell, never "Unknown": the
standardizers stringify the missing marker to a non-missing string before the
missing-value stage runs, so the "Unknown" replacement cannot fire, and the
row (kept as the first occurrence of its duplicate class) appears in the
pipeline's output with that cell value. -/
theorem missing_categorical_cells_stay_nan (t : Table) (hR : Rect t) (col canon : String)
    (hcc : (col, canon) ∈ [("gender", "nan"), ("state", "NAN"),
      ("education", "nan"), ("vehicle_class", "nan")])
    (r : Nat) (hr : r < t.nRows)
    (hHas : (clean_column_names t).hasCol col = true)
    (hm : cellAt (clean_column_names t) col r = .missing) :
    Cell.str canon ≠ Cell.str "Unknown"
    ∧ ∃ j, colIdx (handle_missing_values (clean_and_convert_numerical
        (standardize_vehicle_class (standardize_education (standardize_state
          (standardize_gender (clean_column_names t))))))) col = some j
      ∧ ((handle_missing_values (clean_and_convert_numerical
          (standardize_vehicle_class (standardize_education (standardize_state
            (standardize_gender (clean_column_names t))))))).rows.getD r []).getD j
            .missing = .str canon
      ∧ (handle_missing_values (clean_and_convert_numerical
          (standardize_vehicle_class (standardize_education (standardize_state
            (standardize_gender (clean_column_names t))))))).rows.getD r []
          ∈ (main_cleaning_pipeline t).1.rows := by
  have hR0 : Rect (clean_column_names t) := rect_clean_column_names hR
  obtain ⟨j0, hj0⟩ := hasCol_iff.mp hHas
  simp only [List.mem_cons, List.not_mem_nil, or_false, Prod.mk.injEq] at hcc
  rcases hcc with ⟨rfl, rfl⟩ | ⟨rfl, rfl⟩ | ⟨rfl, rfl⟩ | ⟨rfl, rfl⟩
  · refine ⟨by decide, missing_cat_pipeline_cell t hR _ _ genderCell r hr hHas
      (by decide) (by decide) (by decide) ?_ hm (by decide)⟩
    rw [getCells_clean_and_convert_ne (by decide) (by decide),
      getCells_standardize_vehicle_class_ne (by decide),
      getCells_standardize_education_ne (by decide),
      getCells_standardize_state_ne (by decide)]
    exact getCells_standardize_gender_self hR0 hj0
  · refine ⟨by decide, missing_cat_pipeline_cell t hR _ _ stateCell r hr hHas
      (by decide) (by decide) (by decide) ?_ hm (by decide)⟩
    rw [getCells_clean_and_convert_ne (by decide) (by decide),
      getCells_standardize_vehicle_class_ne (by decide),
      getCells_standardize_education_ne (by decide),
      getCells_standardize_state_self (rect_standardize_gender hR0)
        (by rw [colIdx_standardize_gender]; exact hj0),
      getCells_standardize_gender_ne (by decide)]
  · refine ⟨by decide, missing_cat_pipeline_cell t hR _ _ eduCell r hr hHas
      (by decide) (by decide) (by decide) ?_ hm (by decide)⟩
    rw [getCells_clean_and_convert_ne (by decide) (by decide),
      getCells_standardize_vehicle_class_ne (by decide),
      getCells_standardize_education_self
        (rect_standardize_state (rect_standardize_gender hR0))
        (by rw [colIdx_standardize_state, colIdx_standardize_gender]; exact hj0),
      getCells_standardize_state_ne (by decide),
      getCells_standardize_gender_ne (by decide)]
  · refine ⟨by decide, missing_cat_pipeline_cell t hR _ _ vehCell r hr hHas
      (by decide) (by decide) (by decide) ?_ hm (by decide)⟩
    rw [getCells_clean_and_convert_ne (by decide) (by decide),
      getCells_standardize_vehicle_class_self
        (rect_standardize_education (rect_standardize_state (rect_standardize_gender hR0)))
        (by rw [colIdx_standardize_education, colIdx_standardize_state,
          colIdx_standardize_gender]; exact hj0),
      getCells_standardize_education_ne (by decide),
      getCells_standardize_state_ne (by decide),
      getCells_standardize_gender_ne (by decide)]

/-- C9 witness: a one-row table whose gender cell is missing. -/
theorem missing_categorical_cells_stay_nan_witness :
    Cell.str "nan" ≠ Cell.str "Unknown"
    ∧ ∃ j, colIdx (handle_missing_values (clean_and_convert_numerical
        (standardize_vehicle_class (standardize_education (standardize_state
          (standardize_gender (clean_column_names
            { names := ["gender"], dtypes := [.obj], index := [0]
            , rows := [[.missing]] }))))))) "gender" = some j
      ∧ ((handle_missing_values (clean_and_convert_numerical
          (standardize_vehicle_class (standardize_education (standardize_state
            (standardize_gender (clean_column_names
              { names := ["gender"], dtypes := [.obj], index := [0]
              , rows := [[.missing]] }))))))).rows.getD 0 []).getD j
            .missing = .str "nan"
      ∧ (handle_missing_values (clean_and_convert_numerical
          (standardize_vehicle_class (standardize_education (standardize_state
            (standardize_gender (clean_column_names
              { names := ["gender"], dtypes := [.obj], index := [0]
              , rows := [[.missing]] }))))))).rows.getD 0 []
          ∈ (main_cleaning_pipeline
              { names := ["gender"], dtypes := [.obj], index := [0]
              , rows := [[.missing]] }).1.rows :=
  missing_categorical_cells_stay_nan
    { names := ["gender"], dtypes := [.obj], index := [0], rows := [[.missing]] }
    (by decide) "gender" "nan" (by decide) 0 (by decide) (by decide) (by decide)

/- ## Digit and number-printing lemmas (toward claim C1) -/

theorem digitChar_spec (d : Nat) (h : d < 10) :
    isDigitCh (digitChar d) = true ∧ digitVal (digitChar d) = d := by
  interval_cases d <;> exact ⟨by decide, by decide⟩

theorem digitsVal_append_digit (xs : List Char) (c : Char) :
    digitsVal (xs ++ [c]) = 10 * digitsVal xs + digitVal c := by
  unfold digitsVal
  rw [List.foldl_append]
  rfl

theorem digitsRevFuel_spec : ∀ (fuel n : Nat), n ≤ fuel →
    digitsVal (digitsRevFuel fuel n).reverse = n
    ∧ (∀ c ∈ digitsRevFuel fuel n, isDigitCh c = true) := by
  intro fuel
  induction fuel with
  | zero =>
    intro n hn
    interval_cases n
    exact ⟨rfl, by simp [digitsRevFuel]⟩
  | succ fuel ih =>
    intro n hn
    unfold digitsRevFuel
    by_cases h0 : n = 0
    · subst h0
      rw [if_pos rfl]
      exact ⟨rfl, by simp⟩
    · rw [if_neg h0]
      have hrec := ih (n / 10) (by omega)
      constructor
      · rw [List.reverse_cons, digitsVal_append_digit, hrec.1,
          (digitChar_spec (n % 10) (by omega)).2]
        omega
      · intro c hc
        rcases List.mem_cons.mp hc with rfl | hc
        · exact (digitChar_spec (n % 10) (by omega)).1
        · exact hrec.2 c hc

theorem digitsRevFuel_length : ∀ (fuel n k : Nat), n ≤ fuel → n < 10 ^ k →
    (digitsRevFuel fuel n).length ≤ k := by
  intro fuel
  induction fuel with
  | zero =>
    intro n k hn hk
    interval_cases n
    simp [digitsRevFuel]
  | succ fuel ih =>
    intro n k hn hk
    unfold digitsRevFuel
    by_cases h0 : n = 0
    · rw [if_pos h0]
      simp
    · rw [if_neg h0]
      cases k with
      | zero =>
        simp at hk
        omega
      | succ k =>
        have hdiv : n / 10 < 10 ^ k := by
          rw [Nat.div_lt_iff_lt_mul (by omega)]
          calc n < 10 ^ (k + 1) := hk
            _ = 10 ^ k * 10 := by rw [Nat.pow_succ]
        have := ih (n / 10) k (by omega) hdiv
        simp only [List.length_cons]
        omega

theorem natToStr_spec (n : Nat) :
    (natToStr n).data ≠ [] ∧ (∀ c ∈ (natToStr n).data, isDigitCh c = true)
    ∧ digitsVal (natToStr n).data = n := by
  unfold natToStr
  by_cases h : n = 0
  · subst h
    rw [if_pos rfl]
    exact ⟨by decide, by decide, by decide⟩
  · rw [if_neg h]
    have hs := digitsRevFuel_spec n n le_rfl
    have hne : digitsRevFuel n n ≠ [] := by
      cases n with
      | zero => exact absurd rfl h
      | succ m =>
        unfold digitsRevFuel
        rw [if_neg h]
        simp
    refine ⟨by simpa using hne, ?_, hs.1⟩
    intro c hc
    exact hs.2 c (by simpa using hc)

theorem foldl_digitsVal_zero (j : Nat) :
    List.foldl (fun a c => 10 * a + digitVal c) 0 (List.replicate j '0') = 0 := by
  induction j with
  | zero => rfl
  | succ j ih =>
    rw [List.replicate_succ, List.foldl_cons]
    simpa using ih

theorem digitsVal_replicate_append (j : Nat) (xs : List Char) :
    digitsVal (List.replicate j '0' ++ xs) = digitsVal xs := by
  unfold digitsVal
  rw [List.foldl_append, foldl_digitsVal_zero]

theorem padDigits_spec (k m : Nat) (h : m < 10 ^ k) :
    (padDigits k m).length = k ∧ (∀ c ∈ padDigits k m, isDigitCh c = true)
    ∧ digitsVal (padDigits k m) = m := by
  unfold padDigits
  have hlen := digitsRevFuel_length m m k le_rfl h
  have hs := digitsRevFuel_spec m m le_rfl
  refine ⟨?_, ?_, ?_⟩
  · simp only [List.length_reverse, List.length_append, List.length_replicate]
    omega
  · intro c hc
    simp only [List.mem_reverse, List.mem_append, List.mem_replicate] at hc
    rcases hc with hc | hc
    · exact hs.2 c hc
    · rw [hc.2]
      decide
  · rw [List.reverse_append, List.reverse_replicate, digitsVal_replicate_append]
    exact hs.1

/- ## Parsing the printed number back -/

theorem isDigitCh_toNat {c : Char} (h : isDigitCh c = true) :
    48 ≤ c.toNat ∧ c.toNat ≤ 57 := by
  unfold isDigitCh at h
  exact of_decide_eq_true h

theorem isDigitCh_facts {c : Char} (h : isDigitCh c = true) :
    c ≠ '-' ∧ c ≠ '+' ∧ c ≠ '.' ∧ isWsCh c = false := by
  have ht := isDigitCh_toNat h
  refine ⟨?_, ?_, ?_, ?_⟩
  · intro e
    subst e
    revert ht
    decide
  · intro e
    subst e
    revert ht
    decide
  · intro e
    subst e
    revert ht
    decide
  · unfold isWsCh
    have h1 : c ≠ ' ' := by intro e; subst e; revert ht; decide
    have h2 : c ≠ '\t' := by intro e; subst e; revert ht; decide
    have h3 : c ≠ '\n' := by intro e; subst e; revert ht; decide
    have h4 : c ≠ '\r' := by intro e; subst e; revert ht; decide
    simp [h1, h2, h3, h4]

theorem dropWhile_eq_self_of_all {p : Char → Bool} {l : List Char}
    (h : ∀ c ∈ l, p c = false) : l.dropWhile p = l := by
  cases l with
  | nil => rfl
  | cons c cs =>
    rw [List.dropWhile_cons_of_neg]
    rw [h c (by simp)]
    simp

theorem dropTrail_eq_self_of_all {p : Char → Bool} {l : List Char}
    (h : ∀ c ∈ l, p c = false) : dropTrail p l = l := by
  unfold dropTrail
  rw [dropWhile_eq_self_of_all (fun c hc => h c (List.mem_reverse.mp hc)),
    List.reverse_reverse]

theorem stripList_eq_self_of_all {l : List Char} (h : ∀ c ∈ l, isWsCh c = false) :
    stripList l = l := by
  unfold stripList
  rw [dropWhile_eq_self_of_all h, dropTrail_eq_self_of_all h]

theorem splitDigits_exact {I r : List Char} (hI : ∀ c ∈ I, isDigitCh c = true)
    (hr : ∀ c, r.head? = some c → isDigitCh c = false) :
    splitDigits (I ++ r) = (I, r) := by
  unfold splitDigits
  induction I with
  | nil =>
    cases r with
    | nil => rfl
    | cons c cs =>
      have hc : isDigitCh c = false := hr c rfl
      simp only [List.nil_append]
      rw [List.takeWhile_cons_of_neg (by simp [hc]), List.dropWhile_cons_of_neg (by simp [hc])]
  | cons c cs ih =>
    have hc : isDigitCh c = true := hI c (by simp)
    have hrec := ih (fun x hx => hI x (by simp [hx]))
    simp only [List.cons_append]
    rw [List.takeWhile_cons_of_pos (by simp [hc]), List.dropWhile_cons_of_pos (by simp [hc])]
    rw [Prod.mk.injEq] at hrec ⊢
    exact ⟨by rw [hrec.1], hrec.2⟩

theorem parseSign_hyphen (l : List Char) : parseSign ('-' :: l) = (true, l) := by
  simp [parseSign]

theorem parseSign_other {c : Char} (l : List Char) (h1 : c ≠ '-') (h2 : c ≠ '+') :
    parseSign (c :: l) = (false, c :: l) := by
  simp [parseSign, h1, h2]

theorem parseNumList_digits {I : List Char} (hne : I ≠ [])
    (hI : ∀ c ∈ I, isDigitCh c = true) :
    parseNumList I = some ((digitsVal I : ℕ) : ℚ) := by
  have hstrip : stripList I = I :=
    stripList_eq_self_of_all (fun c hc => (isDigitCh_facts (hI c hc)).2.2.2)
  obtain ⟨c, cs, rfl⟩ : ∃ c cs, I = c :: cs := by
    cases I with
    | nil => exact absurd rfl hne
    | cons c cs => exact ⟨c, cs, rfl⟩
  have hcf := isDigitCh_facts (hI c (by simp))
  have hsign : parseSign (stripList (c :: cs)) = (false, c :: cs) := by
    rw [hstrip]
    exact parseSign_other cs hcf.1 hcf.2.1
  have hsplit : splitDigits (c :: cs) = (c :: cs, []) := by
    have := splitDigits_exact (I := c :: cs) (r := []) hI (by intro x hx; cases hx)
    simpa using this
  unfold parseNumList
  rw [hsign]
  simp only []
  rw [hsplit]
  simp only []
  rw [if_neg (by simp)]
  rfl

theorem parseNumList_neg_digits {I : List Char} (hne : I ≠ [])
    (hI : ∀ c ∈ I, isDigitCh c = true) :
    parseNumList ('-' :: I) = some (-((digitsVal I : ℕ) : ℚ)) := by
  have hstrip : stripList ('-' :: I) = '-' :: I := by
    apply stripList_eq_self_of_all
    intro c hc
    rcases List.mem_cons.mp hc with rfl | hc
    · decide
    · exact (isDigitCh_facts (hI c hc)).2.2.2
  have hsplit : splitDigits I = (I, []) := by
    have := splitDigits_exact (I := I) (r := []) hI (by intro x hx; cases hx)
    simpa using this
  unfold parseNumList
  rw [hstrip, parseSign_hyphen]
  simp only []
  rw [hsplit]
  simp only []
  rw [if_neg hne]
  rfl

theorem parseNumList_dec {I F : List Char} (hneI : I ≠ [])
    (hI : ∀ c ∈ I, isDigitCh c = true) (hF : ∀ c ∈ F, isDigitCh c = true) :
    parseNumList (I ++ '.' :: F)
      = some (((digitsVal I * 10 ^ F.length + digitsVal F : ℕ) : ℚ) / (10 ^ F.length : ℚ)) := by
  have hstrip : stripList (I ++ '.' :: F) = I ++ '.' :: F := by
    apply stripList_eq_self_of_all
    intro c hc
    rcases List.mem_append.mp hc with hc | hc
    · exact (isDigitCh_facts (hI c hc)).2.2.2
    · rcases List.mem_cons.mp hc with rfl | hc
      · decide
      · exact (isDigitCh_facts (hF c hc)).2.2.2
  obtain ⟨c, cs, rfl⟩ : ∃ c cs, I = c :: cs := by
    cases I with
    | nil => exact absurd rfl hneI
    | cons c cs => exact ⟨c, cs, rfl⟩
  have hcf := isDigitCh_facts (hI c (by simp))
  have hsign : parseSign (stripList ((c :: cs) ++ '.' :: F)) = (false, (c :: cs) ++ '.' :: F) := by
    rw [hstrip]
    exact parseSign_other _ hcf.1 hcf.2.1
  have hsplit : splitDigits ((c :: cs) ++ '.' :: F) = (c :: cs, '.' :: F) :=
    splitDigits_exact hI (by intro x hx; injection hx with hx; subst hx; decide)
  have hsplitF : splitDigits F = (F, []) := by
    have := splitDigits_exact (I := F) (r := []) hF (by intro x hx; cases hx)
    simpa using this
  unfold parseNumList
  rw [hsign]
  simp only []
  rw [hsplit]
  simp only [if_true, hsplitF]
  rw [if_pos (show True ∧ (c :: cs ≠ [] ∨ F ≠ []) from ⟨trivial, Or.inl (by simp)⟩)]
  rfl

theorem parseNumList_neg_dec {I F : List Char} (hneI : I ≠ [])
    (hI : ∀ c ∈ I, isDigitCh c = true) (hF : ∀ c ∈ F, isDigitCh c = true) :
    parseNumList ('-' :: (I ++ '.' :: F))
      = some (-(((digitsVal I * 10 ^ F.length + digitsVal F : ℕ) : ℚ)
          / (10 ^ F.length : ℚ))) := by
  have hstrip : stripList ('-' :: (I ++ '.' :: F)) = '-' :: (I ++ '.' :: F) := by
    apply stripList_eq_self_of_all
    intro c hc
    rcases List.mem_cons.mp hc with rfl | hc
    · decide
    · rcases List.mem_append.mp hc with hc | hc
      · exact (isDigitCh_facts (hI c hc)).2.2.2
      · rcases List.mem_cons.mp hc with rfl | hc
        · decide
        · exact (isDigitCh_facts (hF c hc)).2.2.2
  have hsplit : splitDigits (I ++ '.' :: F) = (I, '.' :: F) :=
    splitDigits_exact hI (by intro x hx; injection hx with hx; subst hx; decide)
  have hsplitF : splitDigits F = (F, []) := by
    have := splitDigits_exact (I := F) (r := []) hF (by intro x hx; cases hx)
    simpa using this
  unfold parseNumList
  rw [hstrip, parseSign_hyphen]
  simp only []
  rw [hsplit]
  simp only [if_true, hsplitF]
  rw [if_pos (show True ∧ (I ≠ [] ∨ F ≠ []) from ⟨trivial, Or.inl hneI⟩)]
  rfl

/- ## Divisibility facts for the decimal exponent -/

theorem dvd_ten_pow_self {d : Nat} (hd : 0 < d) :
    ∀ m : Nat, d ∣ 10 ^ m → d ∣ 10 ^ d := by
  induction d using Nat.strong_induction_on with
  | _ d ih =>
    intro m hm
    rcases Nat.lt_or_ge d 2 with h1 | h2
    · have hd1 : d = 1 := by omega
      rw [hd1]
      simp
    · cases m with
      | zero =>
        simp at hm
        omega
      | succ m =>
        set g := Nat.gcd d 10 with hg
        have hgd : g ∣ d := Nat.gcd_dvd_left ..
        have hg10 : g ∣ 10 := Nat.gcd_dvd_right ..
        by_cases hg1 : g = 1
        · exfalso
          have hcop : Nat.Coprime d 10 := hg1
          have hcop2 : Nat.Coprime d (10 ^ (m + 1)) := Nat.Coprime.pow_right _ hcop
          have : d ∣ Nat.gcd d (10 ^ (m + 1)) := Nat.dvd_gcd dvd_rfl hm
          rw [hcop2] at this
          have := Nat.le_of_dvd (by omega) this
          omega
        · have hgpos : 0 < g := Nat.gcd_pos_of_pos_left _ hd
          have hg2 : 2 ≤ g := by omega
          set e := d / g with he
          have hde : d = g * e := (Nat.mul_div_cancel' hgd).symm
          have hepos : 0 < e := by
            rcases Nat.eq_zero_or_pos e with h0 | h0
            · rw [h0, Nat.mul_zero] at hde
              omega
            · exact h0
          have helt : e < d := by
            rw [hde]
            calc e = 1 * e := (Nat.one_mul e).symm
              _ < g * e := by
                apply Nat.mul_lt_mul_of_lt_of_le (by omega) (le_refl e) hepos
          have hed : e ∣ 10 ^ (m + 1) :=
            Dvd.dvd.trans (Nat.div_dvd_of_dvd hgd) hm
          have hee : e ∣ 10 ^ e := ih e helt hepos (m + 1) hed
          have hstep : d ∣ 10 ^ (e + 1) := by
            rw [Nat.pow_succ', hde]
            exact Nat.mul_dvd_mul hg10 hee
          have hle : e + 1 ≤ d := by
            rw [hde]
            calc e + 1 ≤ e + e := by omega
              _ = 2 * e := by omega
              _ ≤ g * e := Nat.mul_le_mul_right e hg2
          exact Dvd.dvd.trans hstep (Nat.pow_dvd_pow 10 hle)

theorem decExp_dvd {d k : Nat} (hd : 0 < d) (h : decExp d = some k) : d ∣ 10 ^ k := by
  unfold decExp at h
  have h2 := List.find?_some h
  have h3 : 10 ^ k % d = 0 := by simpa using h2
  exact Nat.dvd_of_mod_eq_zero h3

theorem decExp_some {d m : Nat} (hd : 0 < d) (h : d ∣ 10 ^ m) :
    ∃ k, decExp d = some k := by
  have h10 : d ∣ 10 ^ d := dvd_ten_pow_self hd m h
  rw [← Option.isSome_iff_exists]
  unfold decExp
  rw [List.find?_isSome]
  refine ⟨d, by simp, ?_⟩
  have : 10 ^ d % d = 0 := Nat.mod_eq_zero_of_dvd h10
  simpa using this

/- ## Round trip: printing then parsing a decimal rational -/

theorem numToStr_roundtrip {q : ℚ} {m : Nat} (hden : (q.den : ℕ) ∣ 10 ^ m) :
    parseNumQ (numToStr q) = some q := by
  have hdpos : 0 < q.den := q.pos
  obtain ⟨k, hk⟩ := decExp_some hdpos hden
  have hdvd : q.den ∣ 10 ^ k := decExp_dvd hdpos hk
  have hdvd2 : q.den ∣ q.num.natAbs * 10 ^ k := Dvd.dvd.mul_left hdvd _
  have hexact : q.num.natAbs * 10 ^ k / q.den * q.den = q.num.natAbs * 10 ^ k :=
    Nat.div_mul_cancel hdvd2
  have hqden : ((q.den : ℕ) : ℚ) ≠ 0 := by
    exact_mod_cast hdpos.ne'
  have hval : ((q.num.natAbs * 10 ^ k / q.den : ℕ) : ℚ) / (10 : ℚ) ^ k
      = ((q.num.natAbs : ℕ) : ℚ) / ((q.den : ℕ) : ℚ) := by
    rw [div_eq_div_iff (by positivity) hqden]
    exact_mod_cast hexact
  unfold parseNumQ numToStr
  rw [hk]
  dsimp only
  by_cases hk0 : k = 0
  · subst hk0
    have hden1 : q.den = 1 := Nat.dvd_one.mp (by simpa using hdvd)
    have hn1 : q.num.natAbs * 10 ^ 0 / q.den = q.num.natAbs := by
      rw [hden1]
      simp
    rw [if_pos rfl]
    by_cases hneg : q.num < 0
    · rw [if_pos hneg]
      have hdata : (("-" : String) ++ natToStr (q.num.natAbs * 10 ^ 0 / q.den)).data
          = '-' :: (natToStr (q.num.natAbs * 10 ^ 0 / q.den)).data := rfl
      rw [hdata, parseNumList_neg_digits (natToStr_spec _).1 (natToStr_spec _).2.1,
        (natToStr_spec _).2.2, hn1]
      have hq : ((q.num.natAbs : ℕ) : ℚ) = -((q.num : ℤ) : ℚ) := by
        rw [Int.cast_natAbs]
        exact_mod_cast abs_of_nonpos (le_of_lt hneg)
      rw [hq]
      congr 1
      rw [neg_neg]
      exact Rat.coe_int_num_of_den_eq_one hden1
    · rw [if_neg hneg]
      have hdata : (("" : String) ++ natToStr (q.num.natAbs * 10 ^ 0 / q.den)).data
          = (natToStr (q.num.natAbs * 10 ^ 0 / q.den)).data := rfl
      rw [hdata, parseNumList_digits (natToStr_spec _).1 (natToStr_spec _).2.1,
        (natToStr_spec _).2.2, hn1]
      have hq : ((q.num.natAbs : ℕ) : ℚ) = ((q.num : ℤ) : ℚ) := by
        rw [Int.cast_natAbs]
        exact_mod_cast abs_of_nonneg (not_lt.mp hneg)
      rw [hq]
      congr 1
      exact Rat.coe_int_num_of_den_eq_one hden1
  · rw [if_neg hk0]
    have hmodlt : q.num.natAbs * 10 ^ k / q.den % 10 ^ k < 10 ^ k :=
      Nat.mod_lt _ (by positivity)
    have hpad := padDigits_spec k (q.num.natAbs * 10 ^ k / q.den % 10 ^ k) hmodlt
    have hI := natToStr_spec (q.num.natAbs * 10 ^ k / q.den / 10 ^ k)
    have hsum : q.num.natAbs * 10 ^ k / q.den / 10 ^ k * 10 ^ k
        + q.num.natAbs * 10 ^ k / q.den % 10 ^ k = q.num.natAbs * 10 ^ k / q.den :=
      Nat.div_add_mod' ..
    by_cases hneg : q.num < 0
    · rw [if_pos hneg]
      have hdata : (("-" : String) ++ natToStr (q.num.natAbs * 10 ^ k / q.den / 10 ^ k)
            ++ ("." : String)
            ++ (⟨padDigits k (q.num.natAbs * 10 ^ k / q.den % 10 ^ k)⟩ : String)).data
          = '-' :: ((natToStr (q.num.natAbs * 10 ^ k / q.den / 10 ^ k)).data
            ++ '.' :: padDigits k (q.num.natAbs * 10 ^ k / q.den % 10 ^ k)) := by
        simp [String.data_append]
      rw [hdata, parseNumList_neg_dec hI.1 hI.2.1 hpad.2.1, hI.2.2, hpad.1, hpad.2.2, hsum]
      have hq : ((q.num.natAbs : ℕ) : ℚ) = -((q.num : ℤ) : ℚ) := by
        rw [Int.cast_natAbs]
        exact_mod_cast abs_of_nonpos (le_of_lt hneg)
      rw [hval, hq]
      congr 1
      rw [neg_div, neg_neg]
      exact Rat.num_div_den q
    · rw [if_neg hneg]
      have hdata : (("" : String) ++ natToStr (q.num.natAbs * 10 ^ k / q.den / 10 ^ k)
            ++ ("." : String)
            ++ (⟨padDigits k (q.num.natAbs * 10 ^ k / q.den % 10 ^ k)⟩ : String)).data
          = (natToStr (q.num.natAbs * 10 ^ k / q.den / 10 ^ k)).data
            ++ '.' :: padDigits k (q.num.natAbs * 10 ^ k / q.den % 10 ^ k) := by
        simp [String.data_append]
      rw [hdata, parseNumList_dec hI.1 hI.2.1 hpad.2.1, hI.2.2, hpad.1, hpad.2.2, hsum]
      have hq : ((q.num.natAbs : ℕ) : ℚ) = ((q.num : ℤ) : ℚ) := by
        rw [Int.cast_natAbs]
        exact_mod_cast abs_of_nonneg (not_lt.mp hneg)
      rw [hval, hq]
      congr 1
      exact Rat.num_div_den q

/- ## Fixed points of the per-column rewrites -/

theorem list_set_getD_self {α : Type} (l : List α) (i : Nat) (d : α) :
    l.set i (l.getD i d) = l := by
  induction l generalizing i with
  | nil => rfl
  | cons a l ih =>
    cases i with
    | zero => rfl
    | succ n =>
      show a :: l.set n ((a :: l).getD (n + 1) d) = a :: l
      rw [List.getD_cons_succ, ih]

theorem list_map_id_on {α : Type} {l : List α} {g : α → α} (h : ∀ x ∈ l, g x = x) :
    l.map g = l := by
  induction l with
  | nil => rfl
  | cons a l ih =>
    rw [List.map_cons, h a (List.mem_cons_self a l),
      ih (fun x hx => h x (List.mem_cons_of_mem a hx))]

/-- a column map whose function fixes every cell of the column, written back
with the column's current dtype, leaves the table unchanged. -/
theorem mapCol_eq_self {t : Table} {n : String} {f : Cell → Cell}
    (hf : ∀ c ∈ getCells t n, f c = c) : mapCol t n (t.dtypeAt n) f = t := by
  cases hcol : colIdx t n with
  | none =>
    unfold mapCol
    rw [hcol]
  | some j =>
    unfold mapCol
    rw [hcol]
    dsimp only
    have hd : t.dtypeAt n = t.dtypes.getD j .obj := by
      unfold Table.dtypeAt
      rw [hcol]
    have hrows : t.rows.map (fun r => r.set j (f (r.getD j .missing))) = t.rows := by
      refine list_map_id_on (fun r hr => ?_)
      have hc : r.getD j .missing ∈ getCells t n := by
        unfold getCells
        rw [hcol]
        exact List.mem_map_of_mem _ hr
      rw [hf _ hc, list_set_getD_self]
    rw [hd, list_set_getD_self, hrows]

theorem colApply_eq_self {t : Table} {n : String} {d : Dtype} {f : Cell → Cell}
    (hd : t.hasCol n = true → t.dtypeAt n = d) (hf : ∀ c ∈ getCells t n, f c = c) :
    colApply n d f t = t := by
  rw [colApply_eq_mapCol]
  cases hcol : colIdx t n with
  | none => exact mapCol_of_none _ _ hcol
  | some j =>
    rw [← hd (hasCol_of_colIdx hcol)]
    exact mapCol_eq_self hf

theorem fillCellWith_ne_missing {v : Cell} (hv : v ≠ Cell.missing) (c : Cell) :
    fillCellWith v c ≠ Cell.missing := by
  unfold fillCellWith
  by_cases h : c = Cell.missing
  · rw [if_pos h]
    exact hv
  · rw [if_neg h]
    exact h

theorem fillCellWith_eq_self {v c : Cell} (h : c ≠ Cell.missing) : fillCellWith v c = c := by
  unfold fillCellWith
  rw [if_neg h]

/- ## Idempotence of the per-cell standardizers -/

theorem genderCell_eval (c : Cell) :
    genderCell c = if headIsCh (upperStr (stripStr (cellStr c))) 'F' then Cell.str "F"
      else if headIsCh (upperStr (stripStr (cellStr c))) 'M' then Cell.str "M"
      else Cell.str (cellStr c) := rfl

theorem genderCell_ne_missing (c : Cell) : genderCell c ≠ Cell.missing := by
  rw [genderCell_eval]
  split
  · exact fun h => Cell.noConfusion h
  · split
    · exact fun h => Cell.noConfusion h
    · exact fun h => Cell.noConfusion h

theorem genderCell_idem (c : Cell) : genderCell (genderCell c) = genderCell c := by
  rw [genderCell_eval c]
  by_cases h1 : headIsCh (upperStr (stripStr (cellStr c))) 'F' = true
  · rw [if_pos h1]
    decide
  · rw [if_neg h1]
    by_cases h2 : headIsCh (upperStr (stripStr (cellStr c))) 'M' = true
    · rw [if_pos h2]
      decide
    · rw [if_neg h2, genderCell_eval]
      have e : cellStr (Cell.str (cellStr c)) = cellStr c := rfl
      rw [e, if_neg h1, if_neg h2]

theorem charOfNat_toNat_mid (m : Nat) (h1 : 65 ≤ m) (h2 : m ≤ 90) :
    (Char.ofNat m).toNat = m := by
  interval_cases m <;> decide

theorem charUp_idem (c : Char) : charUp (charUp c) = charUp c := by
  unfold charUp
  by_cases h : 97 ≤ c.toNat ∧ c.toNat ≤ 122
  · rw [if_pos h]
    have he : (Char.ofNat (c.toNat - 32)).toNat = c.toNat - 32 :=
      charOfNat_toNat_mid _ (by omega) (by omega)
    rw [if_neg (by rw [he]; omega)]
  · rw [if_neg h, if_neg h]

theorem upperStr_idem (s : String) : upperStr (upperStr s) = upperStr s := by
  show (⟨(s.data.map charUp).map charUp⟩ : String) = ⟨s.data.map charUp⟩
  rw [List.map_map]
  exact congrArg (fun l => (⟨l⟩ : String))
    (List.map_congr_left (fun c _ => charUp_idem c))

set_option maxRecDepth 8000 in
theorem stateMapping_values_fixed :
    ∀ p ∈ stateMapping, upperStr p.2 = p.2
      ∧ stateMapping.find? (fun q => q.1 == p.2) = none := by decide

theorem replaceVal_upper_idem (s : String) :
    replaceVal (upperStr (replaceVal (upperStr s))) = replaceVal (upperStr s) := by
  cases hf : stateMapping.find? (fun p => p.1 == upperStr s) with
  | none =>
    have h1 : replaceVal (upperStr s) = upperStr s := by
      unfold replaceVal
      rw [hf]
    rw [h1, upperStr_idem, h1]
  | some p =>
    have h1 : replaceVal (upperStr s) = p.2 := by
      unfold replaceVal
      rw [hf]
    have hp : p ∈ stateMapping := List.mem_of_find?_eq_some hf
    have hv := stateMapping_values_fixed p hp
    have h2 : replaceVal p.2 = p.2 := by
      unfold replaceVal
      rw [hv.2]
    rw [h1, hv.1, h2]

theorem stateCell_ne_missing (c : Cell) : stateCell c ≠ Cell.missing :=
  fun h => Cell.noConfusion h

theorem stateCell_idem (c : Cell) : stateCell (stateCell c) = stateCell c := by
  show Cell.str (replaceVal (upperStr (replaceVal (upperStr (cellStr c))))) = _
  rw [replaceVal_upper_idem]
  rfl

theorem eduCell_eval (c : Cell) :
    eduCell c = if headIn (cellStr c) ['B', 'b'] then Cell.str "Bachelor"
      else Cell.str (cellStr c) := rfl

theorem eduCell_ne_missing (c : Cell) : eduCell c ≠ Cell.missing := by
  rw [eduCell_eval]
  split
  · exact fun h => Cell.noConfusion h
  · exact fun h => Cell.noConfusion h

theorem eduCell_idem (c : Cell) : eduCell (eduCell c) = eduCell c := by
  rw [eduCell_eval c]
  by_cases h : headIn (cellStr c) ['B', 'b'] = true
  · rw [if_pos h]
    decide
  · rw [if_neg h, eduCell_eval]
    have e : cellStr (Cell.str (cellStr c)) = cellStr c := rfl
    rw [e, if_neg h]

theorem vehCell_eval (c : Cell) :
    vehCell c = Cell.str
      (if containsSports (if headIn (cellStr c) ['L', 'u'] then "Luxury" else cellStr c)
       then "Luxury" else (if headIn (cellStr c) ['L', 'u'] then "Luxury" else cellStr c)) := rfl

theorem vehCell_ne_missing (c : Cell) : vehCell c ≠ Cell.missing :=
  fun h => Cell.noConfusion h

theorem vehCell_idem (c : Cell) : vehCell (vehCell c) = vehCell c := by
  rw [vehCell_eval c]
  by_cases h1 : headIn (cellStr c) ['L', 'u'] = true
  · rw [if_pos h1]
    by_cases h2 : containsSports "Luxury" = true
    · exact absurd h2 (by decide)
    · rw [if_neg h2]
      decide
  · rw [if_neg h1]
    by_cases h2 : containsSports (cellStr c) = true
    · rw [if_pos h2]
      decide
    · rw [if_neg h2, vehCell_eval]
      have e : cellStr (Cell.str (cellStr c)) = cellStr c := rfl
      rw [e, if_neg h1, if_neg h2]

/- ## Denominator bookkeeping for the parsed numbers -/

/-- the rational has a finite decimal expansion: its denominator divides a
power of ten.  Every number the numeric cleaner produces satisfies this. -/
def DecQ (q : ℚ) : Prop := ∃ m : Nat, q.den ∣ 10 ^ m

theorem decQ_natCast (n : ℕ) : DecQ (n : ℚ) :=
  ⟨0, by rw [Rat.den_natCast]; exact one_dvd _⟩

theorem decQ_zero : DecQ (0 : ℚ) := by
  have h := decQ_natCast 0
  rwa [Nat.cast_zero] at h

theorem decQ_neg {q : ℚ} (h : DecQ q) : DecQ (-q) := by
  obtain ⟨m, hm⟩ := h
  exact ⟨m, by rw [Rat.neg_den]; exact hm⟩

theorem decQ_applySign (b : Bool) {q : ℚ} (h : DecQ q) : DecQ (applySign b q) := by
  unfold applySign
  cases b with
  | false =>
    rw [if_neg (by simp)]
    exact h
  | true =>
    rw [if_pos rfl]
    exact decQ_neg h

theorem decQ_add {a b : ℚ} (ha : DecQ a) (hb : DecQ b) : DecQ (a + b) := by
  obtain ⟨m, hm⟩ := ha
  obtain ⟨n, hn⟩ := hb
  refine ⟨m + n, dvd_trans (Rat.add_den_dvd a b) ?_⟩
  rw [pow_add]
  exact mul_dvd_mul hm hn

section
attribute [local semireducible] Rat.inv
theorem den_inv_two : ((2 : ℚ)⁻¹).den = 2 := by decide
end

theorem decQ_half {a : ℚ} (ha : DecQ a) : DecQ (a / 2) := by
  obtain ⟨m, hm⟩ := ha
  refine ⟨m + 1, ?_⟩
  rw [div_eq_mul_inv]
  refine dvd_trans (Rat.mul_den_dvd a 2⁻¹) ?_
  rw [den_inv_two, pow_add, pow_one]
  exact mul_dvd_mul hm (by norm_num)

theorem decQ_nat_div_pow (a k : ℕ) : DecQ ((a : ℚ) / 10 ^ k) := by
  refine ⟨k, ?_⟩
  have he : ((a : ℚ) / 10 ^ k) = Rat.divInt (a : ℤ) ((10 ^ k : ℕ) : ℤ) := by
    rw [← Rat.intCast_div_eq_divInt]
    push_cast
    ring
  rw [he]
  have hd : ((Rat.divInt (a : ℤ) ((10 ^ k : ℕ) : ℤ)).den : ℤ) ∣ ((10 ^ k : ℕ) : ℤ) :=
    Rat.den_dvd ..
  exact_mod_cast hd

/-- every value the decimal parser returns has a power-of-ten denominator. -/
theorem decQ_parse {l : List Char} {q : ℚ} (h : parseNumList l = some q) : DecQ q := by
  unfold parseNumList at h
  dsimp only at h
  cases hm : (splitDigits (parseSign (stripList l)).2).2 with
  | nil =>
    rw [hm] at h
    dsimp only at h
    split at h
    · exact Option.noConfusion h
    · have h2 : some (applySign (parseSign (stripList l)).1
          ((digitsVal ((splitDigits (parseSign (stripList l)).2).1) : ℕ) : ℚ)) = some q := h
      rw [Option.some.injEq] at h2
      rw [← h2]
      exact decQ_applySign _ (decQ_natCast _)
  | cons c l4 =>
    rw [hm] at h
    dsimp only at h
    split at h
    · split at h
      · have h2 : some (applySign (parseSign (stripList l)).1
            ((digitsVal ((splitDigits (parseSign (stripList l)).2).1)
                * 10 ^ ((splitDigits l4).1).length + digitsVal ((splitDigits l4).1) : ℕ)
              / (10 ^ ((splitDigits l4).1).length : ℚ))) = some q := h
        rw [Option.some.injEq] at h2
        rw [← h2]
        exact decQ_applySign _ (decQ_nat_div_pow ..)
      · exact Option.noConfusion h
    · exact Option.noConfusion h

/- ## The numeric cleaner fixes its own output -/

theorem isDigitCh_ne_percent {c : Char} (h : isDigitCh c = true) : ¬ c = '%' := by
  intro e
  rw [e] at h
  exact absurd h (by decide)

theorem numToStr_decExp_no_percent {q : ℚ} {k : Nat} (hk : decExp q.den = some k) :
    ∀ c ∈ (numToStr q).data, ¬ c = '%' := by
  intro c hc
  unfold numToStr at hc
  rw [hk] at hc
  dsimp only at hc
  by_cases hk0 : k = 0
  · rw [if_pos hk0] at hc
    rw [String.data_append] at hc
    rcases List.mem_append.mp hc with h1 | h2
    · by_cases hneg : q.num < 0
      · rw [if_pos hneg] at h1
        have e : c = '-' := by simpa using h1
        rw [e]
        decide
      · rw [if_neg hneg] at h1
        simp at h1
    · exact isDigitCh_ne_percent ((natToStr_spec _).2.1 c h2)
  · rw [if_neg hk0] at hc
    simp only [String.data_append] at hc
    rcases List.mem_append.mp hc with h3 | h4
    · rcases List.mem_append.mp h3 with h5 | h6
      · rcases List.mem_append.mp h5 with h7 | h8
        · by_cases hneg : q.num < 0
          · rw [if_pos hneg] at h7
            have e : c = '-' := by simpa using h7
            rw [e]
            decide
          · rw [if_neg hneg] at h7
            simp at h7
        · exact isDigitCh_ne_percent ((natToStr_spec _).2.1 c h8)
      · have e : c = '.' := by simpa using h6
        rw [e]
        decide
    · have hlt : (q.num.natAbs * 10 ^ k / q.den) % 10 ^ k < 10 ^ k :=
        Nat.mod_lt _ (by positivity)
      exact isDigitCh_ne_percent ((padDigits_spec k _ hlt).2.1 c h4)

theorem rstripPercent_numToStr {q : ℚ} {k : Nat} (hk : decExp q.den = some k) :
    rstripPercent (numToStr q) = numToStr q := by
  unfold rstripPercent
  rw [dropTrail_eq_self_of_all
    (fun c hc => decide_eq_false (numToStr_decExp_no_percent hk c hc))]

theorem clvCell_eval (c : Cell) :
    clvCell c = match parseNumQ (rstripPercent (cellStr c)) with
      | some q => Cell.num q
      | none => Cell.missing := rfl

theorem clvCell_shape (c : Cell) :
    clvCell c = Cell.missing ∨
      ∃ q, clvCell c = Cell.num q ∧ parseNumQ (rstripPercent (cellStr c)) = some q := by
  rw [clvCell_eval]
  cases hp : parseNumQ (rstripPercent (cellStr c)) with
  | none => exact Or.inl rfl
  | some q => exact Or.inr ⟨q, rfl, rfl⟩

theorem clvCell_missing : clvCell Cell.missing = Cell.missing := by decide

theorem clvCell_num_decQ {q : ℚ} (h : DecQ q) : clvCell (Cell.num q) = Cell.num q := by
  obtain ⟨m, hm⟩ := h
  obtain ⟨k, hk⟩ := decExp_some q.pos hm
  rw [clvCell_eval]
  have hcs : cellStr (Cell.num q) = numToStr q := rfl
  rw [hcs, rstripPercent_numToStr hk,
    show parseNumQ (numToStr q) = some q from numToStr_roundtrip hm]

/- ## Medians of decimal rationals are decimal -/

theorem mem_insertSorted {x y : ℚ} {l : List ℚ} :
    y ∈ insertSorted x l ↔ y = x ∨ y ∈ l := by
  induction l with
  | nil => simp [insertSorted]
  | cons a l ih =>
    unfold insertSorted
    by_cases h : x ≤ a
    · rw [if_pos h]
      simp
    · rw [if_neg h]
      rw [List.mem_cons, ih, List.mem_cons]
      tauto

theorem mem_sortQ {y : ℚ} {l : List ℚ} : y ∈ sortQ l ↔ y ∈ l := by
  induction l with
  | nil => exact Iff.rfl
  | cons a l ih =>
    unfold sortQ at ih ⊢
    rw [List.foldr_cons, mem_insertSorted, ih, List.mem_cons]

theorem getD_mem_or (l : List ℚ) (i : Nat) : l.getD i 0 ∈ l ∨ l.getD i 0 = 0 := by
  by_cases h : i < l.length
  · left
    rw [List.getD_eq_getElem _ _ h]
    exact List.getElem_mem ..
  · right
    exact List.getD_eq_default _ _ (by omega)

theorem decQ_getD_sortQ {l : List ℚ} (hall : ∀ x ∈ l, DecQ x) (i : Nat) :
    DecQ ((sortQ l).getD i 0) := by
  rcases getD_mem_or (sortQ l) i with hm | hm
  · exact hall _ (mem_sortQ.mp hm)
  · rw [hm]
    exact decQ_zero

theorem decQ_pdMedian {l : List ℚ} {m : ℚ} (hall : ∀ x ∈ l, DecQ x)
    (h : pdMedian l = some m) : DecQ m := by
  unfold pdMedian at h
  split at h
  · exact Option.noConfusion h
  · dsimp only at h
    split at h
    · rw [Option.some.injEq] at h
      rw [← h]
      exact decQ_getD_sortQ hall _
    · rw [Option.some.injEq] at h
      rw [← h]
      exact decQ_half (decQ_add (decQ_getD_sortQ hall _) (decQ_getD_sortQ hall _))

theorem pdMedian_none_iff (l : List ℚ) : pdMedian l = none ↔ l = [] := by
  unfold pdMedian
  by_cases h : l = []
  · rw [if_pos h]
    simp [h]
  · rw [if_neg h]
    dsimp only
    split
    · simp [h]
    · simp [h]

theorem mem_cellNums {q : ℚ} {cs : List Cell} : q ∈ cellNums cs ↔ Cell.num q ∈ cs := by
  unfold cellNums
  rw [List.mem_filterMap]
  constructor
  · rintro ⟨c, hc, he⟩
    cases c with
    | str s => exact Option.noConfusion he
    | bool b => exact Option.noConfusion he
    | missing => exact Option.noConfusion he
    | num q0 =>
      have he2 : some q0 = some q := he
      rw [Option.some.injEq] at he2
      rw [← he2]
      exact hc
  · intro h
    exact ⟨Cell.num q, h, rfl⟩

theorem cellNums_eq_nil {cs : List Cell} (h : ∀ q : ℚ, Cell.num q ∉ cs) :
    cellNums cs = [] := by
  unfold cellNums
  rw [List.filterMap_eq_nil_iff]
  intro c hc
  cases c with
  | str s => rfl
  | bool b => rfl
  | missing => rfl
  | num q0 => exact absurd hc (h q0)

/- ## Idempotence of the column-name normalisation -/

theorem normName_fixed {s : String} (h : isLowerNoSpace s = true) : normName s = s := by
  unfold isLowerNoSpace at h
  rw [List.all_eq_true] at h
  unfold normName
  have he : (s.data.map charLow).map (fun c => if c = ' ' then '_' else c) = s.data := by
    rw [List.map_map]
    refine list_map_id_on (fun c hc => ?_)
    have hcp := h c hc
    rw [Bool.and_eq_true] at hcp
    have h1 : ¬ (65 ≤ c.toNat ∧ c.toNat ≤ 90) := by
      have hx := hcp.1
      simp at hx
      omega
    have h2 : ¬ c = ' ' := by simpa using hcp.2
    show (if charLow c = ' ' then '_' else charLow c) = c
    have hl : charLow c = c := by
      unfold charLow
      rw [if_neg h1]
    rw [hl, if_neg h2]
  rw [he]

theorem renameRule_eval (s : String) :
    renameRule s
      = if s = "st" then "state" else if s = "income" then "customer_income" else s := rfl

theorem cleanName_idem (s : String) :
    renameRule (normName (renameRule (normName s))) = renameRule (normName s) := by
  have hl : isLowerNoSpace (normName s) = true := isLowerNoSpace_normName s
  by_cases h1 : normName s = "st"
  · rw [renameRule_eval (normName s), if_pos h1]
    decide
  · by_cases h2 : normName s = "income"
    · rw [renameRule_eval (normName s), if_neg h1, if_pos h2]
      decide
    · rw [renameRule_eval (normName s), if_neg h1, if_neg h2, normName_fixed hl,
        renameRule_eval (normName s), if_neg h1, if_neg h2]

theorem cleanNames_idem (ns : List String) :
    (((ns.map normName).map renameRule).map normName).map renameRule
      = (ns.map normName).map renameRule := by
  simp only [List.map_map]
  exact List.map_congr_left (fun s _ => cleanName_idem s)

theorem clean_column_names_eq_self {t : Table}
    (h : (t.names.map normName).map renameRule = t.names) : clean_column_names t = t := by
  unfold clean_column_names
  rw [h]

/- ## Invariant transfer through the stages -/

theorem dtypeAt_congr {t s : Table} (hn : t.names = s.names) (hd : t.dtypes = s.dtypes)
    (n : String) : t.dtypeAt n = s.dtypeAt n := by
  unfold Table.dtypeAt colIdx
  rw [hn, hd]

theorem fillMedianCol_dtypes (t : Table) (col : String) :
    (fillMedianCol t col).dtypes = t.dtypes := by
  rcases fillMedianCol_eq_cases t col with h | ⟨m, -, h⟩
  · rw [h]
  · rw [h]
    cases hcol : colIdx t col with
    | none => rw [mapCol_of_none _ _ hcol]
    | some j =>
      rw [mapCol_dtypes_of _ _ hcol]
      have hd : t.dtypeAt col = t.dtypes.getD j .obj := by
        unfold Table.dtypeAt
        rw [hcol]
      rw [hd, list_set_getD_self]

theorem foldl_fillMedian_dtypes (L : List String) (t : Table) :
    (L.foldl fillMedianCol t).dtypes = t.dtypes := by
  induction L generalizing t with
  | nil => rfl
  | cons a L ih => rw [List.foldl_cons, ih, fillMedianCol_dtypes]

theorem dtypeAt_fillUnknownCol_obj {t : Table} (hR : Rect t) {n : String}
    (h : t.dtypeAt n = .obj) (col : String) : (fillUnknownCol t col).dtypeAt n = .obj := by
  by_cases hc : n = col
  · subst hc
    unfold fillUnknownCol
    by_cases hh : t.hasCol n = true
    · rw [if_pos hh]
      obtain ⟨j, hj⟩ := hasCol_iff.mp hh
      dsimp only
      have hdval : (if (getCells t n).contains Cell.missing = true ∧ t.dtypeAt n ≠ Dtype.obj
          then Dtype.obj else t.dtypeAt n) = Dtype.obj := by
        by_cases hcnd : ((getCells t n).contains Cell.missing = true ∧ t.dtypeAt n ≠ Dtype.obj)
        · rw [if_pos hcnd]
        · rw [if_neg hcnd]
          exact h
      rw [hdval]
      exact dtypeAt_mapCol_self hR hj
    · rw [if_neg hh]
      exact h
  · rw [dtypeAt_fillUnknownCol_ne hc]
    exact h

theorem foldl_fillUnknown_dtypeAt_obj (L : List String) {t : Table} (hR : Rect t) {n : String}
    (h : t.dtypeAt n = .obj) : (L.foldl fillUnknownCol t).dtypeAt n = .obj := by
  induction L generalizing t with
  | nil => exact h
  | cons a L ih =>
    rw [List.foldl_cons]
    exact ih (rect_fillUnknownCol hR a) (dtypeAt_fillUnknownCol_obj hR h a)

theorem dtypeAt_colApply_ne {t : Table} {n n2 : String} (d : Dtype) (f : Cell → Cell)
    (hne : n2 ≠ n) : (colApply n d f t).dtypeAt n2 = t.dtypeAt n2 := by
  rw [colApply_eq_mapCol]
  exact dtypeAt_mapCol_ne hne

theorem dtypeAt_colApply_self {t : Table} {n : String} {j : Nat} (d : Dtype) (f : Cell → Cell)
    (hR : Rect t) (h : colIdx t n = some j) : (colApply n d f t).dtypeAt n = d := by
  rw [colApply_eq_mapCol]
  exact dtypeAt_mapCol_self hR h

theorem getCells_remove_duplicates_mem {t : Table} {n : String} {c : Cell}
    (h : c ∈ getCells (remove_duplicates t).1 n) : c ∈ getCells t n := by
  have hidx : colIdx (remove_duplicates t).1 n = colIdx t n := rfl
  unfold getCells at h ⊢
  rw [hidx] at h
  cases hcol : colIdx t n with
  | none =>
    rw [hcol] at h
    dsimp only at h
    exact absurd h (List.not_mem_nil c)
  | some j =>
    rw [hcol] at h
    dsimp only at h ⊢
    rw [List.mem_map] at h ⊢
    obtain ⟨r, hr, he⟩ := h
    exact ⟨r, mem_keepFirsts.mp hr, he⟩

theorem rect_remove_duplicates {t : Table} (hR : Rect t) : Rect (remove_duplicates t).1 := by
  constructor
  · exact hR.1
  · intro r hr
    exact hR.2 r (mem_keepFirsts.mp hr)

theorem handle_missing_eq_no_complaints {v : Table}
    (h : v.hasCol "number_of_open_complaints" = false) :
    handle_missing_values v
      = numerical_cols.foldl fillMedianCol (categorical_cols.foldl fillUnknownCol v) := by
  unfold handle_missing_values
  have hnames : (numerical_cols.foldl fillMedianCol
      (categorical_cols.foldl fillUnknownCol v)).names = v.names := by
    rw [foldl_fillMedian_names, foldl_fillUnknown_names]
  have hc : (numerical_cols.foldl fillMedianCol
      (categorical_cols.foldl fillUnknownCol v)).hasCol "number_of_open_complaints" = false := by
    rw [hasCol_congr hnames]
    exact h
  rw [if_neg (by rw [hc]; exact fun e => Bool.noConfusion e)]

theorem foldl_eq_self {β : Type} {g : Table → β → Table} {x : Table} {L : List β}
    (h : ∀ b ∈ L, g x b = x) : L.foldl g x = x := by
  induction L with
  | nil => rfl
  | cons a L ih =>
    rw [List.foldl_cons, h a (List.mem_cons_self a L)]
    exact ih (fun b hb => h b (List.mem_cons_of_mem a hb))

/- ## Second-pass stage identities -/

theorem remove_duplicates_dtypes (t : Table) : (remove_duplicates t).1.dtypes = t.dtypes := rfl

/-- a categorical standardizer applied a second time, after the full first
pass, changes nothing: the column already holds values of the form `F c` for
the stage's own cell function `F`, possibly missing-filled with "Unknown". -/
theorem cat_stage_second_pass {W : Table} (hRW : Rect W)
    (hWc : W.hasCol "number_of_open_complaints" = false)
    {col : String} (hcat : col ∈ categorical_cols) (hnum : col ∉ numerical_cols)
    {F : Cell → Cell}
    (hdt : W.hasCol col = true → W.dtypeAt col = Dtype.obj)
    (hcells : W.hasCol col = true → ∀ c ∈ getCells W col, ∃ c0, c = F c0)
    (hFne : ∀ c, F c ≠ Cell.missing) (hFidem : ∀ c, F (F c) = F c) :
    colApply col Dtype.obj F (remove_duplicates (handle_missing_values W)).1
      = (remove_duplicates (handle_missing_values W)).1 := by
  have hu7 : handle_missing_values W
      = numerical_cols.foldl fillMedianCol (categorical_cols.foldl fillUnknownCol W) :=
    handle_missing_eq_no_complaints hWc
  set d1 := categorical_cols.foldl fillUnknownCol W with hd1
  set d2 := numerical_cols.foldl fillMedianCol d1 with hd2
  have hRd1 : Rect d1 := rect_foldl_fillUnknown _ hRW
  set O := (remove_duplicates (handle_missing_values W)).1 with hO
  have hnames2 : d2.names = W.names := by
    rw [hd2, foldl_fillMedian_names, hd1, foldl_fillUnknown_names]
  have hOnames : O.names = W.names := by
    rw [hO, remove_duplicates_names, hu7, hnames2]
  refine colApply_eq_self (fun hOc => ?_) (fun c hc => ?_)
  · have hWcol : W.hasCol col = true := by
      rw [← hasCol_congr hOnames]
      exact hOc
    have l1 : d1.dtypeAt col = Dtype.obj :=
      foldl_fillUnknown_dtypeAt_obj _ hRW (hdt hWcol)
    have l2 : d2.dtypeAt col = d1.dtypeAt col :=
      dtypeAt_congr (by rw [hd2, foldl_fillMedian_names])
        (by rw [hd2, foldl_fillMedian_dtypes]) _
    have l3 : O.dtypeAt col = d2.dtypeAt col := by
      have hn : O.names = d2.names := by
        rw [hO, hu7, remove_duplicates_names]
      have hdts : O.dtypes = d2.dtypes := by
        rw [hO, hu7, remove_duplicates_dtypes]
      exact dtypeAt_congr hn hdts _
    rw [l3, l2, l1]
  · have hc7 : c ∈ getCells (handle_missing_values W) col := by
      apply getCells_remove_duplicates_mem
      rw [← hO]
      exact hc
    rw [hu7] at hc7
    by_cases hWcol : W.hasCol col = true
    · have l4 : getCells d2 col = getCells d1 col := by
        rw [hd2]
        exact foldl_fillMedian_getCells_ne hnum
      have l5 : getCells d1 col = (getCells W col).map (fillCellWith (Cell.str "Unknown")) := by
        rw [hd1]
        exact foldl_fillUnknown_getCells_mem (by decide) hcat hRW hWcol
      rw [l4, l5] at hc7
      obtain ⟨c1, hc1, he⟩ := List.mem_map.mp hc7
      obtain ⟨c0, he0⟩ := hcells hWcol c1 hc1
      rw [← he, he0, fillCellWith_eq_self (hFne c0), hFidem]
    · have hcnone : colIdx d2 col = none := by
        apply colIdx_none_of_not_hasCol
        rw [hasCol_congr hnames2]
        exact hWcol
      have hnil : getCells d2 col = [] := by
        unfold getCells
        rw [hcnone]
      rw [hnil] at hc7
      exact absurd hc7 (List.not_mem_nil c)

/-- the numeric cleaner applied a second time changes nothing: the
customer_lifetime_value column holds only decimal rationals (produced by the
parser, possibly median-filled) or missing cells, all fixed by the cleaner,
and the complaints column is absent by hypothesis. -/
theorem num_stage_second_pass {W : Table} (hRW : Rect W)
    (hWc : W.hasCol "number_of_open_complaints" = false)
    (hdt : W.hasCol "customer_lifetime_value" = true →
      W.dtypeAt "customer_lifetime_value" = Dtype.float64)
    (hcells : W.hasCol "customer_lifetime_value" = true →
      ∀ c ∈ getCells W "customer_lifetime_value", ∃ c0, c = clvCell c0) :
    clean_and_convert_numerical (remove_duplicates (handle_missing_values W)).1
      = (remove_duplicates (handle_missing_values W)).1 := by
  have hu7 : handle_missing_values W
      = numerical_cols.foldl fillMedianCol (categorical_cols.foldl fillUnknownCol W) :=
    handle_missing_eq_no_complaints hWc
  set d1 := categorical_cols.foldl fillUnknownCol W with hd1
  set d2 := numerical_cols.foldl fillMedianCol d1 with hd2
  have hRd1 : Rect d1 := rect_foldl_fillUnknown _ hRW
  set O := (remove_duplicates (handle_missing_values W)).1 with hO
  have hnames1 : d1.names = W.names := by
    rw [hd1, foldl_fillUnknown_names]
  have hnames2 : d2.names = W.names := by
    rw [hd2, foldl_fillMedian_names, hnames1]
  have hOnames : O.names = W.names := by
    rw [hO, remove_duplicates_names, hu7, hnames2]
  have hdt1 : W.hasCol "customer_lifetime_value" = true →
      d1.dtypeAt "customer_lifetime_value" = Dtype.float64 := by
    intro hWcol
    rw [hd1, foldl_fillUnknown_dtypeAt_ne (by decide)]
    exact hdt hWcol
  unfold clean_and_convert_numerical
  have hclv : colApply "customer_lifetime_value" Dtype.float64 clvCell O = O := by
    refine colApply_eq_self (fun hOc => ?_) (fun c hc => ?_)
    · have hWcol : W.hasCol "customer_lifetime_value" = true := by
        rw [← hasCol_congr hOnames]
        exact hOc
      have l2 : d2.dtypeAt "customer_lifetime_value"
          = d1.dtypeAt "customer_lifetime_value" :=
        dtypeAt_congr (by rw [hd2, foldl_fillMedian_names])
          (by rw [hd2, foldl_fillMedian_dtypes]) _
      have l3 : O.dtypeAt "customer_lifetime_value"
          = d2.dtypeAt "customer_lifetime_value" := by
        have hn : O.names = d2.names := by
          rw [hO, hu7, remove_duplicates_names]
        have hdts : O.dtypes = d2.dtypes := by
          rw [hO, hu7, remove_duplicates_dtypes]
        exact dtypeAt_congr hn hdts _
      rw [l3, l2, hdt1 hWcol]
    · have hc7 : c ∈ getCells (handle_missing_values W) "customer_lifetime_value" := by
        apply getCells_remove_duplicates_mem
        rw [← hO]
        exact hc
      rw [hu7] at hc7
      by_cases hWcol : W.hasCol "customer_lifetime_value" = true
      · have hHas1 : d1.hasCol "customer_lifetime_value" = true := by
          rw [hasCol_congr hnames1]
          exact hWcol
        have l5 : getCells d1 "customer_lifetime_value"
            = getCells W "customer_lifetime_value" := by
          rw [hd1]
          exact foldl_fillUnknown_getCells_ne (by decide)
        have l4 : getCells d2 "customer_lifetime_value"
            = match pdMedian (cellNums (getCells d1 "customer_lifetime_value")) with
              | some m => (getCells d1 "customer_lifetime_value").map
                  (fillCellWith (Cell.num m))
              | none => getCells d1 "customer_lifetime_value" := by
          rw [hd2]
          exact foldl_fillMedian_getCells_mem (by decide) (by decide) hRd1 hHas1
            (by rw [hdt1 hWcol]; rfl)
        rw [l5] at l4
        have hshape : ∀ c1 ∈ getCells W "customer_lifetime_value",
            c1 = Cell.missing ∨ ∃ q, c1 = Cell.num q ∧ DecQ q := by
          intro c1 hc1
          obtain ⟨c0, he0⟩ := hcells hWcol c1 hc1
          rcases clvCell_shape c0 with hsh | ⟨q, hsh, hp⟩
          · left
            rw [he0, hsh]
          · right
            exact ⟨q, by rw [he0, hsh], decQ_parse hp⟩
        have hfix : ∀ c1 ∈ getCells W "customer_lifetime_value",
            c1 ≠ Cell.missing → clvCell c1 = c1 := by
          intro c1 hc1 hne
          rcases hshape c1 hc1 with he | ⟨q, he, hq⟩
          · exact absurd he hne
          · rw [he]
            exact clvCell_num_decQ hq
        cases hmed : pdMedian (cellNums (getCells W "customer_lifetime_value")) with
        | some m =>
          have hdm : DecQ m := by
            refine decQ_pdMedian (fun q hq => ?_) hmed
            have hmem := mem_cellNums.mp hq
            rcases hshape _ hmem with he | ⟨q2, he, hq2⟩
            · exact absurd he (fun e => Cell.noConfusion e)
            · have he2 : q2 = q := by
                have := he
                rw [Cell.num.injEq] at this
                exact this.symm
              rw [← he2]
              exact hq2
          rw [hmed] at l4
          rw [l4] at hc7
          obtain ⟨c1, hc1, hce⟩ := List.mem_map.mp hc7
          by_cases hm1 : c1 = Cell.missing
          · have : c = Cell.num m := by
              rw [← hce, hm1]
              rfl
            rw [this]
            exact clvCell_num_decQ hdm
          · have : c = c1 := by
              rw [← hce, fillCellWith_eq_self hm1]
            rw [this]
            exact hfix c1 hc1 hm1
        | none =>
          rw [hmed] at l4
          rw [l4] at hc7
          by_cases hm1 : c = Cell.missing
          · rw [hm1]
            exact clvCell_missing
          · exact hfix c hc7 hm1
      · have hcnone : colIdx d2 "customer_lifetime_value" = none := by
          apply colIdx_none_of_not_hasCol
          rw [hasCol_congr hnames2]
          exact hWcol
        have hnil : getCells d2 "customer_lifetime_value" = [] := by
          unfold getCells
          rw [hcnone]
        rw [hnil] at hc7
        exact absurd hc7 (List.not_mem_nil c)
  rw [hclv]
  have hOc : O.hasCol "number_of_open_complaints" = false := by
    rw [hasCol_congr hOnames]
    exact hWc
  unfold colApply
  rw [if_neg (by rw [hOc]; exact fun e => Bool.noConfusion e)]

/-- the missing-value handler applied a second time changes nothing: the
categorical columns carry no missing cell after the first fill, a numeric
column either lost all its missing cells to the first median fill or still has
no numeric value to take a median of, and the flag column is not added since
the complaints column is absent. -/
theorem missing_stage_second_pass {W : Table} (hRW : Rect W)
    (hWc : W.hasCol "number_of_open_complaints" = false) :
    handle_missing_values (remove_duplicates (handle_missing_values W)).1
      = (remove_duplicates (handle_missing_values W)).1 := by
  have hu7 : handle_missing_values W
      = numerical_cols.foldl fillMedianCol (categorical_cols.foldl fillUnknownCol W) :=
    handle_missing_eq_no_complaints hWc
  set d1 := categorical_cols.foldl fillUnknownCol W with hd1
  set d2 := numerical_cols.foldl fillMedianCol d1 with hd2
  have hRd1 : Rect d1 := rect_foldl_fillUnknown _ hRW
  set O := (remove_duplicates (handle_missing_values W)).1 with hO
  have hnames1 : d1.names = W.names := by
    rw [hd1, foldl_fillUnknown_names]
  have hnames2 : d2.names = W.names := by
    rw [hd2, foldl_fillMedian_names, hnames1]
  have hOnames : O.names = W.names := by
    rw [hO, remove_duplicates_names, hu7, hnames2]
  have hOd2names : O.names = d2.names := by
    rw [hO, hu7, remove_duplicates_names]
  have hOd2dtypes : O.dtypes = d2.dtypes := by
    rw [hO, hu7, remove_duplicates_dtypes]
  have hmem7 : ∀ {n : String} {c : Cell}, c ∈ getCells O n → c ∈ getCells d2 n := by
    intro n c hc
    have hc7 : c ∈ getCells (handle_missing_values W) n := by
      apply getCells_remove_duplicates_mem
      rw [← hO]
      exact hc
    rwa [hu7] at hc7
  have hONoC : O.hasCol "number_of_open_complaints" = false := by
    rw [hasCol_congr hOnames]
    exact hWc
  rw [handle_missing_eq_no_complaints hONoC]
  have hcatid : categorical_cols.foldl fillUnknownCol O = O := by
    refine foldl_eq_self (fun col hcol => ?_)
    have hnumnot : col ∉ numerical_cols := by
      have hall : ∀ x ∈ categorical_cols, x ∉ numerical_cols := by decide
      exact hall col hcol
    unfold fillUnknownCol
    by_cases hOc : O.hasCol col = true
    · rw [if_pos hOc]
      have hWcol : W.hasCol col = true := by
        rw [← hasCol_congr hOnames]
        exact hOc
      have hnomiss : ∀ c ∈ getCells O col, c ≠ Cell.missing := by
        intro c hc
        have hc7 := hmem7 hc
        have l4 : getCells d2 col = getCells d1 col := by
          rw [hd2]
          exact foldl_fillMedian_getCells_ne hnumnot
        have l5 : getCells d1 col
            = (getCells W col).map (fillCellWith (Cell.str "Unknown")) := by
          rw [hd1]
          exact foldl_fillUnknown_getCells_mem (by decide) hcol hRW hWcol
        rw [l4, l5] at hc7
        obtain ⟨c1, hc1, he⟩ := List.mem_map.mp hc7
        rw [← he]
        exact fillCellWith_ne_missing (fun e => Cell.noConfusion e) c1
      have hcontains : (getCells O col).contains Cell.missing = false := by
        cases hcb : (getCells O col).contains Cell.missing with
        | false => rfl
        | true => exact absurd rfl (hnomiss _ (List.elem_iff.mp hcb))
      dsimp only
      rw [if_neg (by rw [hcontains]; exact fun hand => Bool.noConfusion hand.1)]
      exact mapCol_eq_self (fun c hc => fillCellWith_eq_self (hnomiss c hc))
    · rw [if_neg hOc]
  rw [hcatid]
  refine foldl_eq_self (fun col hcol => ?_)
  unfold fillMedianCol
  by_cases hg : (O.hasCol col = true ∧ isNumericDt (O.dtypeAt col) = true)
  · rw [if_pos hg]
    have hWcol : W.hasCol col = true := by
      rw [← hasCol_congr hOnames]
      exact hg.1
    have hHas1 : d1.hasCol col = true := by
      rw [hasCol_congr hnames1]
      exact hWcol
    have hdteq : O.dtypeAt col = d1.dtypeAt col := by
      have l2 : d2.dtypeAt col = d1.dtypeAt col :=
        dtypeAt_congr (by rw [hd2, foldl_fillMedian_names])
          (by rw [hd2, foldl_fillMedian_dtypes]) _
      rw [dtypeAt_congr hOd2names hOd2dtypes, l2]
    have l4 : getCells d2 col
        = match pdMedian (cellNums (getCells d1 col)) with
          | some m1 => (getCells d1 col).map (fillCellWith (Cell.num m1))
          | none => getCells d1 col := by
      rw [hd2]
      exact foldl_fillMedian_getCells_mem (by decide) hcol hRd1 hHas1
        (by rw [← hdteq]; exact hg.2)
    cases hm1 : pdMedian (cellNums (getCells d1 col)) with
    | some m1 =>
      rw [hm1] at l4
      have hnomiss : ∀ c ∈ getCells O col, c ≠ Cell.missing := by
        intro c hc
        have hc7 := hmem7 hc
        rw [l4] at hc7
        obtain ⟨c1, hc1, he⟩ := List.mem_map.mp hc7
        rw [← he]
        exact fillCellWith_ne_missing (fun e => Cell.noConfusion e) c1
      cases hm2 : pdMedian (cellNums (getCells O col)) with
      | none => rfl
      | some m2 =>
        exact mapCol_eq_self (fun c hc => fillCellWith_eq_self (hnomiss c hc))
    | none =>
      rw [hm1] at l4
      have hnil : cellNums (getCells d1 col) = [] := (pdMedian_none_iff _).mp hm1
      have hnonum : ∀ q : ℚ, Cell.num q ∉ getCells O col := by
        intro q hq
        have hc7 := hmem7 hq
        rw [l4] at hc7
        have hmem : q ∈ cellNums (getCells d1 col) := mem_cellNums.mpr hc7
        rw [hnil] at hmem
        exact absurd hmem (List.not_mem_nil q)
      have hm2 : pdMedian (cellNums (getCells O col)) = none := by
        rw [cellNums_eq_nil hnonum]
        exact (pdMedian_none_iff _).mpr rfl
      rw [hm2]
  · rw [if_neg hg]

theorem dtypeAt_standardize_gender_ne (u : Table) {n2 : String} (h : n2 ≠ "gender") :
    (standardize_gender u).dtypeAt n2 = u.dtypeAt n2 := dtypeAt_colApply_ne _ _ h

theorem dtypeAt_standardize_state_ne (u : Table) {n2 : String} (h : n2 ≠ "state") :
    (standardize_state u).dtypeAt n2 = u.dtypeAt n2 := dtypeAt_colApply_ne _ _ h

theorem dtypeAt_standardize_education_ne (u : Table) {n2 : String} (h : n2 ≠ "education") :
    (standardize_education u).dtypeAt n2 = u.dtypeAt n2 := dtypeAt_colApply_ne _ _ h

theorem dtypeAt_standardize_vehicle_class_ne (u : Table) {n2 : String}
    (h : n2 ≠ "vehicle_class") :
    (standardize_vehicle_class u).dtypeAt n2 = u.dtypeAt n2 := dtypeAt_colApply_ne _ _ h

theorem dtypeAt_standardize_gender_self {u : Table} {j : Nat} (hR : Rect u)
    (h : colIdx u "gender" = some j) :
    (standardize_gender u).dtypeAt "gender" = Dtype.obj := dtypeAt_colApply_self _ _ hR h

theorem dtypeAt_standardize_state_self {u : Table} {j : Nat} (hR : Rect u)
    (h : colIdx u "state" = some j) :
    (standardize_state u).dtypeAt "state" = Dtype.obj := dtypeAt_colApply_self _ _ hR h

theorem dtypeAt_standardize_education_self {u : Table} {j : Nat} (hR : Rect u)
    (h : colIdx u "education" = some j) :
    (standardize_education u).dtypeAt "education" = Dtype.obj := dtypeAt_colApply_self _ _ hR h

theorem dtypeAt_standardize_vehicle_class_self {u : Table} {j : Nat} (hR : Rect u)
    (h : colIdx u "vehicle_class" = some j) :
    (standardize_vehicle_class u).dtypeAt "vehicle_class" = Dtype.obj :=
  dtypeAt_colApply_self _ _ hR h

theorem dtypeAt_clean_and_convert_ne {u : Table} {n2 : String}
    (h1 : n2 ≠ "customer_lifetime_value") (h2 : n2 ≠ "number_of_open_complaints") :
    (clean_and_convert_numerical u).dtypeAt n2 = u.dtypeAt n2 := by
  unfold clean_and_convert_numerical
  rw [dtypeAt_colApply_ne _ _ h2, dtypeAt_colApply_ne _ _ h1]

theorem dtypeAt_clean_and_convert_clv {u : Table} {j : Nat} (hR : Rect u)
    (h : colIdx u "customer_lifetime_value" = some j) :
    (clean_and_convert_numerical u).dtypeAt "customer_lifetime_value" = Dtype.float64 := by
  unfold clean_and_convert_numerical
  rw [dtypeAt_colApply_ne _ _ (by decide)]
  exact dtypeAt_colApply_self _ _ hR h

theorem remove_duplicates_eq_self {u : Table} (hnd : u.rows.Nodup)
    (hidx : u.index = List.range u.rows.length) : remove_duplicates u = (u, 0) := by
  unfold remove_duplicates
  dsimp only
  rw [keepFirsts_eq_self hnd, Nat.sub_self, ← hidx]

/-- C1 (corrected): for a rectangular table whose normalised column names do
not include number_of_open_complaints, running the pipeline a second time on
its own output changes nothing and the duplicate-removal count of the second
pass is zero.  The restriction is necessary: when the complaints column is
present, the second pass re-applies `astype(str).str.extract(r'/(\d+)/')` to
the already-extracted integer values, whose string forms contain no slashes,
wiping them to missing (see the counterexample). -/
theorem pipeline_idempotent_without_complaints (t : Table) (hR : Rect t)
    (hnc : (clean_column_names t).hasCol "number_of_open_complaints" = false) :
    main_cleaning_pipeline (main_cleaning_pipeline t).1 = ((main_cleaning_pipeline t).1, 0) := by
  set u1 := clean_column_names t with hu1
  set u2 := standardize_gender u1 with hu2
  set u3 := standardize_state u2 with hu3
  set u4 := standardize_education u3 with hu4
  set u5 := standardize_vehicle_class u4 with hu5
  set u6 := clean_and_convert_numerical u5 with hu6
  have hR1 : Rect u1 := rect_clean_column_names hR
  have hR2 : Rect u2 := rect_standardize_gender hR1
  have hR3 : Rect u3 := rect_standardize_state hR2
  have hR4 : Rect u4 := rect_standardize_education hR3
  have hR5 : Rect u5 := rect_standardize_vehicle_class hR4
  have hR6 : Rect u6 := rect_clean_and_convert hR5
  have hnc1 : u1.hasCol "number_of_open_complaints" = false := hnc
  have hn2 : u2.names = u1.names := standardize_gender_names u1
  have hn3 : u3.names = u1.names := by
    rw [hu3, standardize_state_names, hn2]
  have hn4 : u4.names = u1.names := by
    rw [hu4, standardize_education_names, hn3]
  have hn5 : u5.names = u1.names := by
    rw [hu5, standardize_vehicle_class_names, hn4]
  have hn6 : u6.names = u1.names := by
    rw [hu6, clean_and_convert_names, hn5]
  have h6c : u6.hasCol "number_of_open_complaints" = false := by
    rw [hasCol_congr hn6]
    exact hnc1
  have hcells_g : u6.hasCol "gender" = true →
      ∀ c ∈ getCells u6 "gender", ∃ c0, c = genderCell c0 := by
    intro h6
    have h1 : u1.hasCol "gender" = true := by
      rw [← hasCol_congr hn6]
      exact h6
    obtain ⟨j, hj⟩ := hasCol_iff.mp h1
    have hchain : getCells u6 "gender" = (getCells u1 "gender").map genderCell := by
      rw [hu6, getCells_clean_and_convert_ne (by decide) (by decide),
        hu5, getCells_standardize_vehicle_class_ne (by decide),
        hu4, getCells_standardize_education_ne (by decide),
        hu3, getCells_standardize_state_ne (by decide),
        hu2, getCells_standardize_gender_self hR1 hj]
    rw [hchain]
    intro c hc
    obtain ⟨c0, hc0, he⟩ := List.mem_map.mp hc
    exact ⟨c0, he.symm⟩
  have hdt_g : u6.hasCol "gender" = true → u6.dtypeAt "gender" = Dtype.obj := by
    intro h6
    have h1 : u1.hasCol "gender" = true := by
      rw [← hasCol_congr hn6]
      exact h6
    obtain ⟨j, hj⟩ := hasCol_iff.mp h1
    rw [hu6, dtypeAt_clean_and_convert_ne (by decide) (by decide),
      hu5, dtypeAt_standardize_vehicle_class_ne _ (by decide),
      hu4, dtypeAt_standardize_education_ne _ (by decide),
      hu3, dtypeAt_standardize_state_ne _ (by decide),
      hu2]
    exact dtypeAt_standardize_gender_self hR1 hj
  have hcells_s : u6.hasCol "state" = true →
      ∀ c ∈ getCells u6 "state", ∃ c0, c = stateCell c0 := by
    intro h6
    have h1 : u2.hasCol "state" = true := by
      rw [hasCol_congr (hn2.trans hn6.symm)]
      exact h6
    obtain ⟨j, hj⟩ := hasCol_iff.mp h1
    have hchain : getCells u6 "state" = (getCells u2 "state").map stateCell := by
      rw [hu6, getCells_clean_and_convert_ne (by decide) (by decide),
        hu5, getCells_standardize_vehicle_class_ne (by decide),
        hu4, getCells_standardize_education_ne (by decide),
        hu3, getCells_standardize_state_self hR2 hj]
    rw [hchain]
    intro c hc
    obtain ⟨c0, hc0, he⟩ := List.mem_map.mp hc
    exact ⟨c0, he.symm⟩
  have hdt_s : u6.hasCol "state" = true → u6.dtypeAt "state" = Dtype.obj := by
    intro h6
    have h1 : u2.hasCol "state" = true := by
      rw [hasCol_congr (hn2.trans hn6.symm)]
      exact h6
    obtain ⟨j, hj⟩ := hasCol_iff.mp h1
    rw [hu6, dtypeAt_clean_and_convert_ne (by decide) (by decide),
      hu5, dtypeAt_standardize_vehicle_class_ne _ (by decide),
      hu4, dtypeAt_standardize_education_ne _ (by decide),
      hu3]
    exact dtypeAt_standardize_state_self hR2 hj
  have hcells_e : u6.hasCol "education" = true →
      ∀ c ∈ getCells u6 "education", ∃ c0, c = eduCell c0 := by
    intro h6
    have h1 : u3.hasCol "education" = true := by
      rw [hasCol_congr (hn3.trans hn6.symm)]
      exact h6
    obtain ⟨j, hj⟩ := hasCol_iff.mp h1
    have hchain : getCells u6 "education" = (getCells u3 "education").map eduCell := by
      rw [hu6, getCells_clean_and_convert_ne (by decide) (by decide),
        hu5, getCells_standardize_vehicle_class_ne (by decide),
        hu4, getCells_standardize_education_self hR3 hj]
    rw [hchain]
    intro c hc
    obtain ⟨c0, hc0, he⟩ := List.mem_map.mp hc
    exact ⟨c0, he.symm⟩
  have hdt_e : u6.hasCol "education" = true → u6.dtypeAt "education" = Dtype.obj := by
    intro h6
    have h1 : u3.hasCol "education" = true := by
      rw [hasCol_congr (hn3.trans hn6.symm)]
      exact h6
    obtain ⟨j, hj⟩ := hasCol_iff.mp h1
    rw [hu6, dtypeAt_clean_and_convert_ne (by decide) (by decide),
      hu5, dtypeAt_standardize_vehicle_class_ne _ (by decide),
      hu4]
    exact dtypeAt_standardize_education_self hR3 hj
  have hcells_v : u6.hasCol "vehicle_class" = true →
      ∀ c ∈ getCells u6 "vehicle_class", ∃ c0, c = vehCell c0 := by
    intro h6
    have h1 : u4.hasCol "vehicle_class" = true := by
      rw [hasCol_congr (hn4.trans hn6.symm)]
      exact h6
    obtain ⟨j, hj⟩ := hasCol_iff.mp h1
    have hchain : getCells u6 "vehicle_class" = (getCells u4 "vehicle_class").map vehCell := by
      rw [hu6, getCells_clean_and_convert_ne (by decide) (by decide),
        hu5, getCells_standardize_vehicle_class_self hR4 hj]
    rw [hchain]
    intro c hc
    obtain ⟨c0, hc0, he⟩ := List.mem_map.mp hc
    exact ⟨c0, he.symm⟩
  have hdt_v : u6.hasCol "vehicle_class" = true →
      u6.dtypeAt "vehicle_class" = Dtype.obj := by
    intro h6
    have h1 : u4.hasCol "vehicle_class" = true := by
      rw [hasCol_congr (hn4.trans hn6.symm)]
      exact h6
    obtain ⟨j, hj⟩ := hasCol_iff.mp h1
    rw [hu6, dtypeAt_clean_and_convert_ne (by decide) (by decide), hu5]
    exact dtypeAt_standardize_vehicle_class_self hR4 hj
  have hcells_c : u6.hasCol "customer_lifetime_value" = true →
      ∀ c ∈ getCells u6 "customer_lifetime_value", ∃ c0, c = clvCell c0 := by
    intro h6
    have h1 : u5.hasCol "customer_lifetime_value" = true := by
      rw [hasCol_congr (hn5.trans hn6.symm)]
      exact h6
    obtain ⟨j, hj⟩ := hasCol_iff.mp h1
    have hchain : getCells u6 "customer_lifetime_value"
        = (getCells u5 "customer_lifetime_value").map clvCell := by
      rw [hu6]
      unfold clean_and_convert_numerical
      rw [getCells_colApply_ne (by decide)]
      exact getCells_colApply_self hR5 hj
    rw [hchain]
    intro c hc
    obtain ⟨c0, hc0, he⟩ := List.mem_map.mp hc
    exact ⟨c0, he.symm⟩
  have hdt_c : u6.hasCol "customer_lifetime_value" = true →
      u6.dtypeAt "customer_lifetime_value" = Dtype.float64 := by
    intro h6
    have h1 : u5.hasCol "customer_lifetime_value" = true := by
      rw [hasCol_congr (hn5.trans hn6.symm)]
      exact h6
    obtain ⟨j, hj⟩ := hasCol_iff.mp h1
    rw [hu6]
    exact dtypeAt_clean_and_convert_clv hR5 hj
  have hOis : main_cleaning_pipeline t = remove_duplicates (handle_missing_values u6) := by
    rw [main_pipeline_eq t, ← hu1, ← hu2, ← hu3, ← hu4, ← hu5, ← hu6]
  rw [hOis]
  set O := (remove_duplicates (handle_missing_values u6)).1 with hOset
  have hmvnames : (handle_missing_values u6).names = u6.names := by
    rw [handle_missing_eq_no_complaints h6c, foldl_fillMedian_names, foldl_fillUnknown_names]
  have hOnames : O.names = u1.names := by
    rw [hOset, remove_duplicates_names, hmvnames, hn6]
  have hu1names : u1.names = (t.names.map normName).map renameRule := by
    rw [hu1]
    rfl
  rw [main_pipeline_eq O]
  have e1 : clean_column_names O = O := by
    apply clean_column_names_eq_self
    rw [hOnames, hu1names]
    exact cleanNames_idem t.names
  rw [e1]
  have e2 : standardize_gender O = O := by
    rw [hOset]
    exact cat_stage_second_pass hR6 h6c (by decide) (by decide) hdt_g hcells_g
      genderCell_ne_missing genderCell_idem
  rw [e2]
  have e3 : standardize_state O = O := by
    rw [hOset]
    exact cat_stage_second_pass hR6 h6c (by decide) (by decide) hdt_s hcells_s
      stateCell_ne_missing stateCell_idem
  rw [e3]
  have e4 : standardize_education O = O := by
    rw [hOset]
    exact cat_stage_second_pass hR6 h6c (by decide) (by decide) hdt_e hcells_e
      eduCell_ne_missing eduCell_idem
  rw [e4]
  have e5 : standardize_vehicle_class O = O := by
    rw [hOset]
    exact cat_stage_second_pass hR6 h6c (by decide) (by decide) hdt_v hcells_v
      vehCell_ne_missing vehCell_idem
  rw [e5]
  have e6 : clean_and_convert_numerical O = O := by
    rw [hOset]
    exact num_stage_second_pass hR6 h6c hdt_c hcells_c
  rw [e6]
  have e7 : handle_missing_values O = O := by
    rw [hOset]
    exact missing_stage_second_pass hR6 h6c
  rw [e7]
  refine remove_duplicates_eq_self ?_ ?_
  · rw [hOset, remove_duplicates_rows]
    exact nodup_keepFirsts _
  · rw [hOset, remove_duplicates_index, remove_duplicates_rows]

/-- a table with a complaints column as the pipeline expects it raw:
`"1/5/00"` extracts to the integer 5 on the first pass. -/
def complaintsPassTable : Table :=
  { names := ["number_of_open_complaints"], dtypes := [.obj], index := [0]
  , rows := [[Cell.str "1/5/00"]] }

set_option maxRecDepth 40000 in
/-- C1 counterexample: the claim asserts idempotence for every table, but on a
table with a number_of_open_complaints column the second pass re-runs
`astype(str).str.extract(r'/(\d+)/')` on the cleaned integer 5, whose string
form "5" has no slashes, so the cell collapses to missing (and the
complaints_missing flag flips to true): the second pass is not the identity. -/
theorem pipeline_idempotence_claim_counterexample :
    main_cleaning_pipeline (main_cleaning_pipeline complaintsPassTable).1
      ≠ ((main_cleaning_pipeline complaintsPassTable).1, 0) := by decide

/-- a small rectangular table without a complaints column, used to witness the
corrected idempotence theorem. -/
def idemWitnessTable : Table :=
  { names := ["gender"], dtypes := [.obj], index := [0], rows := [[Cell.str "female"]] }

/-- witness: the corrected idempotence theorem applies to a concrete table. -/
theorem pipeline_idempotent_without_complaints_witness :
    Rect idemWitnessTable
    ∧ (clean_column_names idemWitnessTable).hasCol "number_of_open_complaints" = false
    ∧ main_cleaning_pipeline (main_cleaning_pipeline idemWitnessTable).1
        = ((main_cleaning_pipeline idemWitnessTable).1, 0) :=
  ⟨by decide, by decide,
    pipeline_idempotent_without_complaints idemWitnessTable (by decide) (by decide)⟩
